import Mathlib

/-!
Shallow embedding of the StegoLab core (src/backend/steganography.py and
src/backend/analysis.py) together with proofs about the embedding/extraction
pipeline, the position scheduler, and the steganalysis aggregator.

Pixel grids are modelled as total functions from (row, col, channel) triples
to natural numbers; the numpy uint8 invariant (samples < 256) appears as an
explicit hypothesis where the reasoning needs it.  Bytes are naturals < 256,
byte strings are lists of naturals.  Exact rational arithmetic stands in for
Python floats in the analysis code.  External libraries are modelled by
deterministic stand-ins (the SHA-256 seed, the Mersenne-Twister shuffle) or
by explicit function parameters (the Fernet cipher and its random salt),
with the structure that the repository's own code adds (salt prepending and
slicing, CRC placement) embedded faithfully.
-/

set_option maxRecDepth 8000
set_option maxHeartbeats 4000000

namespace StegoLab

/-- A pixel address: (row, col, channelIndex), as produced by
`_generate_embedding_positions`. -/
abbrev Pos := Nat × Nat × Nat

/-- A pixel grid, modelled as a total function from addresses to sample
values.  The uint8 range constraint is carried as a hypothesis. -/
abbrev Grid := Pos → Nat

/-! ### CRC-32 (zlib), big-endian u32 packing, the frame header -/

/-- One bit step of the zlib CRC-32 feedback (polynomial 0xEDB88320). -/
def crcStep (c : Nat) : Nat :=
  if c &&& 1 = 1 then (c >>> 1) ^^^ 0xEDB88320 else c >>> 1

/-- Fold one byte into the running CRC state (8 feedback steps). -/
def crcByte (c b : Nat) : Nat :=
  (List.range 8).foldl (fun acc _ => crcStep acc) (c ^^^ (b &&& 255))

/-- `zlib.crc32` over a byte string (initial value 0, i.e. state
0xFFFFFFFF, final complement). -/
def crc32 (data : List Nat) : Nat :=
  (data.foldl crcByte 0xFFFFFFFF) ^^^ 0xFFFFFFFF

/-- Big-endian u32 serialization, as `struct.pack '>I'` produces for
values below 2^32. -/
def packU32BE (n : Nat) : List Nat :=
  [(n >>> 24) &&& 255, (n >>> 16) &&& 255, (n >>> 8) &&& 255, n &&& 255]

/-- Big-endian u32 deserialization, as `struct.unpack '>I'`. -/
def parseU32BE (l : List Nat) : Nat :=
  l.foldl (fun a b => a * 256 + b) 0

/-- The ASCII bytes of the magic `b'STEG'`. -/
def MAGIC_BYTES : List Nat := [83, 84, 69, 71]

/-- `SteganographyEngine.HEADER_SIZE`. -/
def HEADER_SIZE : Nat := 16

/-- `SteganographyEngine._create_payload_with_header`: 16-byte header
(magic, u32 length, u32 CRC-32, u32 zero, all big-endian) followed by the
payload bytes.  When `plaintextCrc` is supplied it is stored, otherwise the
CRC of `payloadData` itself is stored. -/
def createPayloadWithHeader (payloadData : List Nat) (plaintextCrc : Option Nat) :
    List Nat :=
  let crc := match plaintextCrc with
    | some c => c
    | none => crc32 payloadData &&& 0xFFFFFFFF
  MAGIC_BYTES ++ packU32BE payloadData.length ++ packU32BE crc ++ packU32BE 0
    ++ payloadData

/-- `SteganographyEngine._validate_header`: the header must be exactly 16
bytes and start with the magic. -/
def validateHeader (headerData : List Nat) : Bool :=
  headerData.length == HEADER_SIZE && headerData.take 4 == MAGIC_BYTES

/-! ### Channels and capacity -/

/-- The `channel_map` dictionary of `_get_channel_indices`. -/
def channelMap (ch : String) : Option Nat :=
  if ch = "red" then some 0
  else if ch = "green" then some 1
  else if ch = "blue" then some 2
  else none

/-- `SteganographyEngine._get_channel_indices`: a falsy (empty) channel
list yields the default `[0, 1, 2]`; otherwise names are mapped through
`channel_map`, silently dropping unknown names. -/
def getChannelIndices (channels : List String) : List Nat :=
  if channels.isEmpty then [0, 1, 2]
  else channels.filterMap channelMap

/-- `SteganographyEngine._calculate_capacity`: available bits are the
total embeddable bits minus the 128 header bits; Python's floor division
is `Int.fdiv`. -/
def calcCapacity (height width bits numChannels : Nat) : Int :=
  let pixels : Int := (width : Int) * (height : Int)
  let bitsPerPixel : Int := (bits : Int) * (numChannels : Int)
  let totalBits : Int := pixels * bitsPerPixel
  let availableBits : Int := totalBits - (HEADER_SIZE : Int) * 8
  Int.fdiv availableBits 8

/-! ### The position schedule -/

/-- Raster enumeration of all (row, col, channel) triples: rows outermost,
then columns, then the selected channels in their given order. -/
def allPositions (height width : Nat) (selectedChannels : List Nat) : List Pos :=
  (List.range height).flatMap fun r =>
    (List.range width).flatMap fun c =>
      selectedChannels.map fun ch => (r, c, ch)

/-- Deterministic stand-in for the 32-bit SHA-256-derived shuffle seed
(`int(hashlib.sha256(password.encode()).hexdigest()[:8], 16)`); hashlib is
an external library, and only determinism and fixedness of the derivation
matter to the engine. -/
def seedOfPassword (password : String) : Nat :=
  (password.toList.foldl (fun a c => (a * 131 + c.toNat) % 4294967296) 7)

/-- A linear congruential step, the deterministic pseudo-random source of
the shuffle stand-in. -/
def lcgNext (x : Nat) : Nat := (x * 1103515245 + 12345) % 2147483648

/-- Seeded random-extraction shuffle, with the list length as structural
fuel: draw the element at index `seed % length`, then recurse on the rest
with the advanced generator state. -/
def shuffleGo : Nat → Nat → List Pos → List Pos
  | 0, _, _ => []
  | _, _, [] => []
  | n + 1, seed, l@(_ :: _) =>
    let k := seed % l.length
    l.getD k (0, 0, 0) :: shuffleGo n (lcgNext seed) (l.eraseIdx k)

/-- Deterministic stand-in for `random.Random(seed).shuffle`: a seeded
random-extraction (Fisher-Yates) permutation.  The Mersenne Twister itself
is an external library; the engine relies only on the shuffle being a
fixed, deterministic permutation for a given seed. -/
def shuffleSeeded (seed : Nat) (l : List Pos) : List Pos :=
  shuffleGo l.length seed l

/-- Python truthiness of the optional password: `None` and the empty
string are falsy. -/
def pwTruthy : Option String → Bool
  | none => false
  | some s => !s.isEmpty

/-- The full (optionally password-permuted) schedule underlying
`_generate_embedding_positions`. -/
def fullSchedule (height width : Nat) (password : Option String)
    (selectedChannels : List Nat) : List Pos :=
  let all := allPositions height width selectedChannels
  match password with
  | some s => if s.isEmpty then all else shuffleSeeded (seedOfPassword s) all
  | none => all

/-- `SteganographyEngine._generate_embedding_positions`: enumerate all
candidate positions, optionally shuffle with the password-derived seed,
and return the slice `[startIndex, startIndex + positionsNeeded)`. -/
def genPositions (height width : Nat) (positionsNeeded : Nat)
    (password : Option String) (selectedChannels : List Nat)
    (startIndex : Nat) : List Pos :=
  ((fullSchedule height width password selectedChannels).drop startIndex).take
    positionsNeeded

/-! ### Bit-level embedding and extraction -/

/-- The `i`-th bit (MSB-first within each byte) of a byte string, as read
by the assembly loop of `_embed_data`; indices past the end read as zero,
matching the zero-padding of the final bit group. -/
def bitAt (data : List Nat) (i : Nat) : Nat :=
  (data.getD (i / 8) 0 >>> (7 - i % 8)) &&& 1

/-- The `bits`-wide group embedded at schedule index `k` by `_embed_data`:
bits `k*bits .. k*bits+bits-1` of the data stream, assembled MSB-first
(`val = (val << 1) | bit`), with zero padding past the end of the data. -/
def embedVal (data : List Nat) (bits k : Nat) : Nat :=
  (List.range bits).foldl (fun v j => (v <<< 1) ||| bitAt data (k * bits + j)) 0

/-- One sample update of `_embed_data`: clear the low `bits` bits
(`&= ~bit_mask` on a uint8) and OR in the new group. -/
def writeSample (bits s v : Nat) : Nat :=
  (s &&& (255 ^^^ (2 ^ bits - 1))) ||| (v &&& (2 ^ bits - 1))

/-- Pointwise functional update of a grid. -/
def updateG (g : Grid) (p : Pos) (v : Nat) : Grid :=
  fun q => if q = p then v else g q

/-- The embedding loop of `_embed_data`, with `k` the current schedule
index (so the bit pointer is `k * bits`, and the loop breaks once the bit
pointer reaches the end of the data). -/
def embedGo (d : List Nat) (bits : Nat) : Grid → List Pos → Nat → Grid
  | g, [], _ => g
  | g, p :: rest, k =>
    if 8 * d.length ≤ k * bits then g
    else embedGo d bits (updateG g p (writeSample bits (g p) (embedVal d bits k)))
      rest (k + 1)

/-- `SteganographyEngine._embed_data` as a grid transformer. -/
def embedData (g : Grid) (d : List Nat) (positions : List Pos) (bits : Nat) :
    Grid :=
  embedGo d bits g positions 0

/-- The `bits` bits contributed by one sample in `_extract_data`: the low
`bits` bits of the sample, appended MSB-first. -/
def groupBits (bits v : Nat) : List Nat :=
  (List.range bits).map fun j => ((v &&& (2 ^ bits - 1)) >>> (bits - 1 - j)) &&& 1

/-- The `bits_collected` list of `_extract_data`: per-position groups,
truncated to the `length_bytes * 8` bits actually needed (both the outer
and the inner break of the source loop). -/
def collectedBits (g : Grid) (positions : List Pos) (bits lengthBytes : Nat) :
    List Nat :=
  ((positions.map fun p => groupBits bits (g p)).flatten).take (lengthBytes * 8)

/-- The inner byte-assembly loop of `_extract_data`
(`byte_val = (byte_val << 1) | bits_collected[i + j]`); an out-of-range
index is a Python `IndexError`, modelled as `none`. -/
def assembleByte (bs : List Nat) (i : Nat) : Option Nat :=
  (List.range 8).foldl
    (fun acc j => acc.bind fun v => (bs.get? (i + j)).map fun b => (v <<< 1) ||| b)
    (some 0)

/-- `SteganographyEngine._extract_data`: collect the low bits at the given
positions and reassemble `lengthBytes` bytes MSB-first; `none` models the
uncaught `IndexError` raised when the collected bits run out. -/
def extractData (g : Grid) (positions : List Pos) (bits lengthBytes : Nat) :
    Option (List Nat) :=
  (List.range lengthBytes).mapM fun b =>
    assembleByte (collectedBits g positions bits lengthBytes) (8 * b)

/-! ### The engine: embed and extract -/

/-- The error kinds the spec assigns to the engine.  `indexError` stands
for the unspecified Python `IndexError` escaping `_extract_data`. -/
inductive StegoError where
  | capacityExceeded
  | invalidFrame
  | decryptionFailure
  | integrityError
  | indexError
  deriving DecidableEq, Repr

/-- `SteganographyEngine._encrypt_payload` minus the external cipher: the
repository's own structure prepends the fresh 16-byte salt to the Fernet
token; the token itself is the parameter `fernetEnc` (keyed by the salt,
standing for the PBKDF2-derived key). -/
def encryptPayload (fernetEnc : List Nat → List Nat → List Nat)
    (salt : List Nat) (payload : List Nat) : List Nat :=
  salt ++ fernetEnc salt payload

/-- `SteganographyEngine._decrypt_payload` minus the external cipher: the
repository's own structure splits off the first 16 bytes as the salt and
hands the rest to Fernet; authentication failure is `none`. -/
def decryptPayload (fernetDec : List Nat → List Nat → Option (List Nat))
    (encryptedPayload : List Nat) : Option (List Nat) :=
  fernetDec (encryptedPayload.take 16) (encryptedPayload.drop 16)

/-- The framed byte string `payload_with_header` built by `embed`: when
encrypting (flag set and password truthy), the ciphertext is framed with
the CRC-32 of the plaintext; otherwise the payload is framed directly. -/
def embedFramed (fernetEnc : List Nat → List Nat → List Nat) (salt : List Nat)
    (payload : List Nat) (password : Option String) (encrypt : Bool) :
    List Nat :=
  if encrypt && pwTruthy password then
    createPayloadWithHeader (encryptPayload fernetEnc salt payload)
      (some (crc32 payload &&& 0xFFFFFFFF))
  else
    createPayloadWithHeader payload none

/-- The schedule slice `embed` writes to: one position per `bits`-wide
group of the framed data, starting at schedule offset 0. -/
def embedPositions (fernetEnc : List Nat → List Nat → List Nat)
    (salt : List Nat) (height width : Nat) (payload : List Nat) (bits : Nat)
    (channels : List String) (password : Option String) (encrypt : Bool) :
    List Pos :=
  let framed := embedFramed fernetEnc salt payload password encrypt
  genPositions height width ((framed.length * 8 + bits - 1) / bits) password
    (getChannelIndices channels) 0

/-- `SteganographyEngine.embed` on a decoded pixel grid: validate the
payload length against the capacity, frame (optionally encrypting), and
write the framed bits at the scheduled positions of a copy of the grid.
The saved-image round trip, metrics and base64 wrapping are outside the
core. -/
def embedModel (fernetEnc : List Nat → List Nat → List Nat) (salt : List Nat)
    (g : Grid) (height width numChannels : Nat) (payload : List Nat)
    (bits : Nat) (channels : List String) (password : Option String)
    (encrypt : Bool) : Except StegoError Grid :=
  if (payload.length : Int) > calcCapacity height width bits channels.length then
    .error .capacityExceeded
  else
    .ok (embedData g (embedFramed fernetEnc salt payload password encrypt)
      (genPositions height width
        (((embedFramed fernetEnc salt payload password encrypt).length * 8 +
          bits - 1) / bits) password (getChannelIndices channels) 0) bits)

/-- `SteganographyEngine.extract` on a decoded pixel grid: read and
validate the 16-byte header, read the payload of the length the header
announces, optionally decrypt, and check the CRC-32. -/
def extractModel (fernetDec : List Nat → List Nat → Option (List Nat))
    (g : Grid) (height width numChannels : Nat) (bits : Nat)
    (channels : List String) (password : Option String) (encrypt : Bool) :
    Except StegoError (List Nat) :=
  match extractData g
      (genPositions height width ((HEADER_SIZE * 8 + bits - 1) / bits) password
        (getChannelIndices channels) 0) bits HEADER_SIZE with
  | none => .error .indexError
  | some headerData =>
    if !validateHeader headerData then .error .invalidFrame
    else
      match extractData g
          (genPositions height width
            ((parseU32BE ((headerData.drop 4).take 4) * 8 + bits - 1) / bits)
            password (getChannelIndices channels)
            ((HEADER_SIZE * 8 + bits - 1) / bits)) bits
          (parseU32BE ((headerData.drop 4).take 4)) with
      | none => .error .indexError
      | some rawPayload =>
        match (if encrypt && pwTruthy password then
            decryptPayload fernetDec rawPayload
          else some rawPayload) with
        | none => .error .decryptionFailure
        | some plain =>
          if crc32 plain ≠ parseU32BE ((headerData.drop 8).take 4) then
            .error .integrityError
          else .ok plain


/-- The CRC value stored by `_create_payload_with_header`. -/
def storedCrc (payloadData : List Nat) (plaintextCrc : Option Nat) : Nat :=
  match plaintextCrc with
  | some c => c
  | none => crc32 payloadData &&& 0xFFFFFFFF

/-! ### Steganalysis: the bit-plane detector (`_bitplane_analysis`) -/

/-- Bit `bitIdx` of the sample at (r, c) of channel `chIdx`
(`(channel_data >> bit) & 1`). -/
def planeBit (g : Grid) (chIdx bitIdx r c : Nat) : Nat :=
  (g (r, c, chIdx) >>> bitIdx) &&& 1

/-- `np.mean` over a list, in exact rational arithmetic (the empty list
yields 0, where numpy would produce NaN). -/
def listMeanQ (l : List ℚ) : ℚ := l.sum / l.length

/-- `np.var`: the population variance. -/
def popVarQ (l : List ℚ) : ℚ :=
  listMeanQ (l.map fun x => (x - listMeanQ l) ^ 2)

/-- The 8x8 block of bit-plane 0 values starting at (i, j), flattened
row-major. -/
def blockValues (g : Grid) (ch i j : Nat) : List ℚ :=
  (List.range 8).flatMap fun a =>
    (List.range 8).map fun b => ((planeBit g ch 0 (i + a) (j + b) : Nat) : ℚ)

/-- The block start offsets produced by the source loop
`range(0, dim - block_size, block_size)` with `block_size = 8`. -/
def pyBlockStarts (dim : Nat) : List Nat :=
  (List.range (((dim - 8) + 7) / 8)).map fun i => 8 * i

/-- The per-channel statistics record of `_bitplane_analysis`.  `lsbStd`
is reported by the source as the standard deviation of the block
variances; it is represented here by its square `lsbVarOfBlockVars`
(the population variance of the block variances), avoiding irrational
square roots. -/
structure BitplaneStats where
  lsbVariance : ℚ
  lsbVarOfBlockVars : ℚ
  higherBitVariance : ℚ
  varianceRatio : ℚ
  suspicious : Bool
  deriving DecidableEq, Repr

/-- `_bitplane_analysis` for one channel, parametrized by the block start
enumeration (the loop bound under scrutiny). -/
def bitplaneStatsWith (blockStartsOf : Nat → List Nat) (g : Grid)
    (H W ch : Nat) : BitplaneStats :=
  let noiseVariances := (blockStartsOf H).flatMap fun i =>
    (blockStartsOf W).map fun j => popVarQ (blockValues g ch i j)
  let meanVariance := listMeanQ noiseVariances
  let higher := popVarQ ((List.range H).flatMap fun r =>
    (List.range W).map fun c => ((planeBit g ch 1 r c : Nat) : ℚ))
  let ratio := meanVariance / (higher + 1 / 1000000)
  { lsbVariance := meanVariance
    lsbVarOfBlockVars := popVarQ noiseVariances
    higherBitVariance := higher
    varianceRatio := ratio
    suspicious := ratio > 2 || ratio < 1 / 2 }

/-- The detector as implemented (block starts strictly below `dim - 8`). -/
def bitplaneAnalysis (g : Grid) (H W ch : Nat) : BitplaneStats :=
  bitplaneStatsWith pyBlockStarts g H W ch

/-- The claimed partition into all disjoint complete 8x8 blocks
(start offsets `i` with `i % 8 = 0` and `i + 8 ≤ dim`). -/
def specBlockStarts (dim : Nat) : List Nat :=
  (List.range dim).filter fun i => i % 8 == 0 && i + 8 ≤ dim

/-- The amended block enumeration: complete blocks strictly inside the
plane (`i + 8 < dim`); a complete block flush with the bottom or right
edge is discarded. -/
def specBlockStartsAmended (dim : Nat) : List Nat :=
  (List.range dim).filter fun i => i % 8 == 0 && i + 8 < dim

/-- The detector as the claim describes it. -/
def bitplaneSpec (g : Grid) (H W ch : Nat) : BitplaneStats :=
  bitplaneStatsWith specBlockStarts g H W ch

/-- The detector with the amended block enumeration. -/
def bitplaneSpecAmended (g : Grid) (H W ch : Nat) : BitplaneStats :=
  bitplaneStatsWith specBlockStartsAmended g H W ch

/-! ### Steganalysis: confidence aggregation and explanation -/

/-- Per-channel chi-square detector output as consumed by
`_calculate_confidence`. -/
structure ChiSquareResult where
  chi2Statistic : ℚ
  pValue : ℚ
  deviation : ℚ
  suspicious : Bool
  deriving DecidableEq, Repr

/-- Per-channel RS detector output as consumed by
`_calculate_confidence`. -/
structure RsResult where
  rsScore : ℚ
  suspicious : Bool
  deriving DecidableEq, Repr

/-- Per-channel bit-plane detector output as consumed by
`_calculate_confidence`. -/
structure BitplaneResult where
  varianceRatio : ℚ
  suspicious : Bool
  deriving DecidableEq, Repr

/-- Chi-square per-channel confidence
(`(min(deviation*2, 1) + (1 - p)) / 2`). -/
def chiConfidence (r : ChiSquareResult) : ℚ :=
  (min (r.deviation * 2) 1 + (1 - r.pValue)) / 2

/-- RS per-channel confidence (`min(rs_score * 5, 1)`). -/
def rsConfidence (r : RsResult) : ℚ := min (r.rsScore * 5) 1

/-- Bit-plane per-channel confidence. -/
def bpConfidence (r : BitplaneResult) : ℚ :=
  if r.varianceRatio > 2 then min ((r.varianceRatio - 2) / 3) 1
  else if r.varianceRatio < 1 / 2 then min ((1 / 2 - r.varianceRatio) / (1 / 2)) 1
  else 0

/-- The confidence scores collected by `_calculate_confidence`, in source
order: chi-square channels, then RS, then bit-plane, suspicious ones
only. -/
def confidenceScores (chi : List (String × ChiSquareResult))
    (rs : List (String × RsResult)) (bp : List (String × BitplaneResult)) :
    List ℚ :=
  (chi.filter fun r => r.2.suspicious).map (fun r => chiConfidence r.2)
    ++ (rs.filter fun r => r.2.suspicious).map (fun r => rsConfidence r.2)
    ++ (bp.filter fun r => r.2.suspicious).map (fun r => bpConfidence r.2)

/-- `_calculate_confidence`: `min(max(confidence_scores), 1.0)` when any
score was collected, else 0. -/
def calculateConfidence (chi : List (String × ChiSquareResult))
    (rs : List (String × RsResult)) (bp : List (String × BitplaneResult)) : ℚ :=
  match confidenceScores chi rs bp with
  | [] => 0
  | x :: xs => min (xs.foldl max x) 1

/-- Clamp to the unit interval. -/
def clamp01 (x : ℚ) : ℚ := max 0 (min x 1)

/-- The aggregate as the spec words it: the maximum of the per-channel
confidences clamped to [0, 1], and 0 when no channel is suspicious. -/
def specAggregate (chi : List (String × ChiSquareResult))
    (rs : List (String × RsResult)) (bp : List (String × BitplaneResult)) : ℚ :=
  match confidenceScores chi rs bp with
  | [] => 0
  | x :: xs => clamp01 (xs.foldl max x)

/-- Stand-in for the Python `{:.3f}` float formatting used in one
explanation sentence; the exact rendering is irrelevant to the claims. -/
def fmt3 (q : ℚ) : String := toString (q * 1000).floor

/-- `_generate_explanation`: a confidence banding sentence, one sentence
per suspicious channel per detector, and a summary of suspicious
chi-square channels, joined by single spaces. -/
def generateExplanation (chi : List (String × ChiSquareResult))
    (rs : List (String × RsResult)) (bp : List (String × BitplaneResult))
    (confidence : ℚ) : String :=
  let banding := if confidence < 3 / 10 then
      "No significant steganographic artifacts detected."
    else if confidence < 3 / 5 then
      "Some statistical anomalies detected, but inconclusive."
    else "Strong evidence of steganographic content detected."
  let suspiciousChannels := (chi.filter fun r => r.2.suspicious).map (fun r => r.1)
  let chiSentences := (chi.filter fun r => r.2.suspicious).map fun r =>
    r.1.toUpper ++ " channel shows unnatural LSB distribution (p=" ++
      fmt3 r.2.pValue ++ ")."
  let rsSentences := (rs.filter fun r => r.2.suspicious).map fun r =>
    r.1.toUpper ++ " channel RS analysis indicates potential LSB manipulation."
  let bpSentences := (bp.filter fun r => r.2.suspicious).map fun r =>
    r.1.toUpper ++ " channel bit-plane analysis shows unusual noise patterns."
  let summary := if suspiciousChannels.isEmpty then []
    else ["Most suspicious channels: " ++
      (String.intercalate ", " suspiciousChannels).toUpper]
  String.intercalate " "
    ([banding] ++ chiSentences ++ rsSentences ++ bpSentences ++ summary)

/-- Substring containment on strings, as a boolean. -/
def containsSub (hay needle : String) : Bool :=
  (List.range (hay.toList.length + 1)).any fun i =>
    List.isPrefixOf needle.toList (hay.toList.drop i)

/-! ### Concrete fixtures for witnesses and counterexamples -/

instance {E A : Type} [DecidableEq E] [DecidableEq A] :
    DecidableEq (Except E A) := fun x y =>
  match x, y with
  | .ok a, .ok b =>
    if h : a = b then isTrue (by rw [h])
    else isFalse (by intro hc; cases hc; exact h rfl)
  | .error a, .error b =>
    if h : a = b then isTrue (by rw [h])
    else isFalse (by intro hc; cases hc; exact h rfl)
  | .ok _, .error _ => isFalse (by intro hc; cases hc)
  | .error _, .ok _ => isFalse (by intro hc; cases hc)

/-- A constant test grid. -/
def constGrid (v : Nat) : Grid := fun _ => v

/-- The default channel name list. -/
def rgbNames : List String := ["red", "green", "blue"]

/-- A length-preserving test cipher (the identity token function);
`_encrypt_payload` still prepends the 16-byte salt, so even this cipher
enlarges the framed body. -/
def feId : List Nat → List Nat → List Nat := fun _ p => p

/-- A test decryptor that accepts everything. -/
def fdId : List Nat → List Nat → Option (List Nat) := fun _ p => some p

/-- A fixed all-zero 16-byte salt standing in for `os.urandom(16)`. -/
def salt16 : List Nat := List.replicate 16 0

/-- A stego grid produced by embedding one byte at 2 bits per channel. -/
def c7Stego : Grid :=
  (embedModel feId salt16 (constGrid 170) 8 8 3 [7] 2 rgbNames none
    false).toOption.getD (constGrid 0)

/-- A stego grid holding the byte 7, for the empty-channel extraction
counterexample. -/
def c4Stego : Grid :=
  (embedModel feId salt16 (constGrid 170) 8 8 3 [7] 1 rgbNames none
    false).toOption.getD (constGrid 0)

/-- A fake frame header announcing a 500-byte payload. -/
def c10Header : List Nat := MAGIC_BYTES ++ packU32BE 500 ++ packU32BE 0 ++
  packU32BE 0

/-- A 6x8 grid carrying only the fake header. -/
def c10Grid : Grid :=
  embedData (constGrid 0) c10Header (allPositions 6 8 [0, 1, 2]) 1

/-- A 16x16 one-channel test plane: the top-left 8x8 block of bit-plane 0
is constant, the bottom-right 8x8 block is a checkerboard. -/
def c8Grid : Grid := fun p =>
  if 8 ≤ p.1 ∧ 8 ≤ p.2.1 ∧ (p.1 + p.2.1) % 2 = 0 then 1 else 0

/-- All-clean detector results for the aggregator scenario. -/
def cleanChi : List (String × ChiSquareResult) :=
  [("red", ⟨1, 4/5, 1/100, false⟩), ("green", ⟨1, 7/10, 1/100, false⟩),
    ("blue", ⟨1, 9/10, 1/100, false⟩)]

/-- All-clean RS results for the aggregator scenario. -/
def cleanRs : List (String × RsResult) :=
  [("red", ⟨1/20, false⟩), ("green", ⟨3/100, false⟩), ("blue", ⟨1/25, false⟩)]

/-- All-clean bit-plane results for the aggregator scenario. -/
def cleanBp : List (String × BitplaneResult) :=
  [("red", ⟨11/10, false⟩), ("green", ⟨9/10, false⟩), ("blue", ⟨1, false⟩)]

/-! ### Basic bit lemmas -/

theorem and255_eq_mod (x : Nat) : x &&& 255 = x % 256 := by
  have h := Nat.and_pow_two_sub_one_eq_mod x 8
  norm_num at h
  exact h

theorem bitAt_le_one (d : List Nat) (i : Nat) : bitAt d i ≤ 1 := by
  unfold bitAt
  rw [Nat.and_one_is_mod]
  exact Nat.le_of_lt_succ (Nat.mod_lt _ (by norm_num))

theorem bitAt_of_ge (d : List Nat) (i : Nat) (h : 8 * d.length ≤ i) :
    bitAt d i = 0 := by
  unfold bitAt
  rw [List.getD_eq_getElem?_getD, List.getElem?_eq_none (by omega), Option.getD_none]
  simp

theorem crcStep_lt (c : Nat) (h : c < 2 ^ 32) : crcStep c < 2 ^ 32 := by
  have hsr : c >>> 1 ≤ c := by
    rw [Nat.shiftRight_eq_div_pow]
    exact Nat.div_le_self _ _
  unfold crcStep
  split
  · exact Nat.xor_lt_two_pow (lt_of_le_of_lt hsr h) (by norm_num)
  · exact lt_of_le_of_lt hsr h

theorem crcByte_lt (c b : Nat) (h : c < 2 ^ 32) : crcByte c b < 2 ^ 32 := by
  unfold crcByte
  have h0 : c ^^^ (b &&& 255) < 2 ^ 32 := by
    apply Nat.xor_lt_two_pow h
    calc b &&& 255 ≤ 255 := Nat.and_le_right
    _ < 2 ^ 32 := by norm_num
  generalize c ^^^ (b &&& 255) = x at h0
  generalize List.range 8 = js
  induction js generalizing x with
  | nil => simpa using h0
  | cons j js ih => exact ih _ (crcStep_lt _ h0)

theorem crc32_lt (d : List Nat) : crc32 d < 2 ^ 32 := by
  unfold crc32
  apply Nat.xor_lt_two_pow _ (by norm_num)
  have : ∀ (l : List Nat) (c : Nat), c < 2 ^ 32 → l.foldl crcByte c < 2 ^ 32 := by
    intro l
    induction l with
    | nil => intro c hc; simpa using hc
    | cons b l ih => intro c hc; exact ih _ (crcByte_lt _ _ hc)
  exact this d 0xFFFFFFFF (by norm_num)

theorem parseU32BE_packU32BE (n : Nat) (h : n < 2 ^ 32) :
    parseU32BE (packU32BE n) = n := by
  simp only [parseU32BE, packU32BE, List.foldl, and255_eq_mod,
    Nat.shiftRight_eq_div_pow]
  norm_num
  omega

theorem packU32BE_length (n : Nat) : (packU32BE n).length = 4 := rfl

theorem packU32BE_bytes_lt (n : Nat) : ∀ b ∈ packU32BE n, b < 256 := by
  intro b hb
  simp only [packU32BE, List.mem_cons, List.not_mem_nil, or_false] at hb
  rcases hb with h | h | h | h <;>
    (subst h; exact lt_of_le_of_lt Nat.and_le_right (by norm_num))

/-- Reassembling the MSB-first bits of a byte recovers the byte. -/
theorem byte_foldl (x : Nat) (hx : x < 256) :
    (List.range 8).foldl (fun v j => (v <<< 1) ||| ((x >>> (7 - j)) &&& 1)) 0
      = x := by
  have h : ∀ y : Fin 256, (List.range 8).foldl
      (fun v j => (v <<< 1) ||| ((y.val >>> (7 - j)) &&& 1)) 0 = y.val := by
    decide
  exact h ⟨x, hx⟩

/-! ### writeSample and embedVal -/

theorem writeSample_and_mask (bits s v : Nat) (hb : bits ≤ 8) :
    writeSample bits s v &&& (2 ^ bits - 1) = v &&& (2 ^ bits - 1) := by
  unfold writeSample
  apply Nat.eq_of_testBit_eq
  intro i
  simp only [Nat.testBit_land, Nat.testBit_lor, Nat.testBit_xor,
    Nat.testBit_two_pow_sub_one,
    show (255 : Nat) = 2 ^ 8 - 1 by norm_num]
  by_cases hib : i < bits
  · have hi8 : i < 8 := lt_of_lt_of_le hib hb
    simp [hib, hi8]
  · simp [hib]

theorem writeSample_shiftRight (bits s v : Nat) (hb : bits ≤ 8) (hs : s < 256) :
    writeSample bits s v >>> bits = s >>> bits := by
  unfold writeSample
  apply Nat.eq_of_testBit_eq
  intro i
  simp only [Nat.testBit_shiftRight, Nat.testBit_land, Nat.testBit_lor,
    Nat.testBit_xor, Nat.testBit_two_pow_sub_one,
    show (255 : Nat) = 2 ^ 8 - 1 by norm_num]
  have hnb : ¬ bits + i < bits := by omega
  by_cases h8 : bits + i < 8
  · simp [hnb, h8]
  · have hsb : s.testBit (bits + i) = false := by
      apply Nat.testBit_lt_two_pow
      calc s < 256 := hs
      _ = 2 ^ 8 := by norm_num
      _ ≤ 2 ^ (bits + i) := Nat.pow_le_pow_right (by norm_num) (by omega)
    simp [hnb, h8, hsb]

theorem writeSample_lt (bits s v : Nat) (hb : bits ≤ 8) (hs : s < 256) :
    writeSample bits s v < 256 := by
  unfold writeSample
  rw [show (256 : Nat) = 2 ^ 8 by norm_num] at hs ⊢
  have h1 : s &&& (255 ^^^ (2 ^ bits - 1)) < 2 ^ 8 :=
    lt_of_le_of_lt Nat.and_le_left hs
  have h2 : v &&& (2 ^ bits - 1) < 2 ^ 8 := by
    calc v &&& (2 ^ bits - 1) ≤ 2 ^ bits - 1 := Nat.and_le_right
    _ < 2 ^ bits := Nat.sub_lt (Nat.pos_pow_of_pos _ (by norm_num)) (by norm_num)
    _ ≤ 2 ^ 8 := Nat.pow_le_pow_right (by norm_num) hb
  exact Nat.or_lt_two_pow h1 h2

theorem embedVal_one (d : List Nat) (k : Nat) : embedVal d 1 k = bitAt d k := by
  simp [embedVal, List.range_succ]

theorem embedVal_two (d : List Nat) (k : Nat) :
    embedVal d 2 k = 2 * bitAt d (k * 2) + bitAt d (k * 2 + 1) := by
  have h0 := bitAt_le_one d (k * 2)
  have h1 := bitAt_le_one d (k * 2 + 1)
  simp only [embedVal, show List.range 2 = [0, 1] from rfl, List.foldl,
    Nat.add_zero]
  rcases Nat.le_one_iff_eq_zero_or_eq_one.mp h0 with h | h <;>
    rcases Nat.le_one_iff_eq_zero_or_eq_one.mp h1 with h2 | h2 <;>
      rw [h, h2] <;> decide

theorem embedVal_lt (d : List Nat) (bits k : Nat)
    (hbits : bits = 1 ∨ bits = 2) : embedVal d bits k < 2 ^ bits := by
  rcases hbits with h | h <;> subst h
  · rw [embedVal_one]
    have := bitAt_le_one d k
    omega
  · rw [embedVal_two]
    have := bitAt_le_one d (k * 2)
    have := bitAt_le_one d (k * 2 + 1)
    omega

/-- The low bits written at schedule index `k` disassemble back into the
original data bits: `groupBits` applied to the written sample yields bits
`k*bits .. k*bits+bits-1` of the data stream. -/
theorem groupBits_writeSample (d : List Nat) (bits s k : Nat)
    (hbits : bits = 1 ∨ bits = 2) :
    groupBits bits (writeSample bits s (embedVal d bits k)) =
      (List.range bits).map (fun j => bitAt d (k * bits + j)) := by
  have hmask : writeSample bits s (embedVal d bits k) &&& (2 ^ bits - 1) =
      embedVal d bits k := by
    rw [writeSample_and_mask _ _ _ (by omega)]
    rw [Nat.and_pow_two_sub_one_eq_mod]
    exact Nat.mod_eq_of_lt (embedVal_lt d bits k hbits)
  unfold groupBits
  rw [hmask]
  rcases hbits with h | h <;> subst h
  · simp only [show List.range 1 = [0] from rfl, List.map, embedVal_one,
      Nat.shiftRight_zero, Nat.and_one_is_mod, Nat.mul_one, Nat.add_zero,
      Nat.sub_self]
    have h := bitAt_le_one d k
    simp only [List.cons.injEq, and_true]
    omega
  · simp only [show List.range 2 = [0, 1] from rfl, List.map, embedVal_two,
      Nat.add_zero]
    have h0 := bitAt_le_one d (k * 2)
    have h1 := bitAt_le_one d (k * 2 + 1)
    rcases Nat.le_one_iff_eq_zero_or_eq_one.mp h0 with h | h <;>
      rcases Nat.le_one_iff_eq_zero_or_eq_one.mp h1 with h2 | h2 <;>
        rw [h, h2] <;> decide

/-! ### Schedule lemmas -/

theorem getD_cons_eraseIdx_perm :
    ∀ (l : List Pos) (k : Nat), k < l.length →
      List.Perm (l.getD k (0, 0, 0) :: l.eraseIdx k) l := by
  intro l
  induction l with
  | nil => intro k hk; simp at hk
  | cons a t ih =>
    intro k hk
    cases k with
    | zero => simp [List.eraseIdx]
    | succ k =>
      simp only [List.getD_cons_succ, List.eraseIdx_cons_succ]
      exact (List.Perm.swap a _ _).trans
        ((ih k (by simp only [List.length_cons] at hk; omega)).cons a)

theorem shuffleGo_perm : ∀ (n : Nat) (seed : Nat) (l : List Pos),
    l.length = n → List.Perm (shuffleGo n seed l) l := by
  intro n
  induction n with
  | zero =>
    intro seed l hl
    rw [List.length_eq_zero.mp hl]
    rfl
  | succ n ih =>
    intro seed l hl
    match l, hl with
    | a :: t, hl =>
      show List.Perm ((a :: t).getD (seed % (a :: t).length) (0, 0, 0) ::
        shuffleGo n (lcgNext seed) ((a :: t).eraseIdx (seed % (a :: t).length)))
        (a :: t)
      have hk : seed % (a :: t).length < (a :: t).length :=
        Nat.mod_lt seed (by simp)
      have hlen : ((a :: t).eraseIdx (seed % (a :: t).length)).length = n := by
        rw [List.length_eraseIdx]
        simp only [hk, if_true]
        omega
      exact ((ih _ _ hlen).cons _).trans (getD_cons_eraseIdx_perm _ _ hk)

theorem shuffleSeeded_perm (seed : Nat) (l : List Pos) :
    List.Perm (shuffleSeeded seed l) l :=
  shuffleGo_perm _ _ _ rfl

theorem length_flatMap_const {α β : Type} (l : List α) (f : α → List β)
    (c : Nat) (h : ∀ a ∈ l, (f a).length = c) :
    (l.flatMap f).length = l.length * c := by
  induction l with
  | nil => simp
  | cons a t ih =>
    simp only [List.flatMap_cons, List.length_append, List.length_cons]
    rw [h a (by simp), ih (fun x hx => h x (by simp [hx]))]
    ring

theorem allPositions_length (H W : Nat) (chans : List Nat) :
    (allPositions H W chans).length = H * W * chans.length := by
  unfold allPositions
  rw [length_flatMap_const _ _ (W * chans.length)]
  · simp [Nat.mul_assoc]
  · intro r _
    rw [length_flatMap_const _ _ chans.length]
    · simp
    · intro c _
      simp

theorem allPositions_nodup (H W : Nat) (chans : List Nat)
    (h : chans.Nodup) : (allPositions H W chans).Nodup := by
  unfold allPositions
  rw [List.nodup_flatMap]
  constructor
  · intro r _
    rw [List.nodup_flatMap]
    constructor
    · intro c _
      exact h.map (fun ch ch2 hh => by simpa using hh)
    · apply List.Pairwise.imp _ (List.nodup_range W)
      intro c c2 hcc
      intro p hp hp2
      simp only [List.mem_map] at hp hp2
      obtain ⟨ch, _, rfl⟩ := hp
      obtain ⟨ch2, _, heq⟩ := hp2
      have h2 : c = c2 ∧ ch = ch2 := by simpa using heq.symm
      exact hcc h2.1
  · apply List.Pairwise.imp _ (List.nodup_range H)
    intro r r2 hrr
    intro p hp hp2
    simp only [List.mem_flatMap, List.mem_map] at hp hp2
    obtain ⟨c, _, ch, _, rfl⟩ := hp
    obtain ⟨c2, _, ch2, _, heq⟩ := hp2
    have h2 : r = r2 ∧ c = c2 ∧ ch = ch2 := by simpa using heq.symm
    exact hrr h2.1

theorem fullSchedule_perm (H W : Nat) (pw : Option String) (chans : List Nat) :
    List.Perm (fullSchedule H W pw chans) (allPositions H W chans) := by
  unfold fullSchedule
  match pw with
  | none => rfl
  | some s =>
    by_cases hs : s.isEmpty <;> simp [hs, shuffleSeeded_perm]

theorem fullSchedule_length (H W : Nat) (pw : Option String)
    (chans : List Nat) :
    (fullSchedule H W pw chans).length = H * W * chans.length := by
  rw [(fullSchedule_perm H W pw chans).length_eq, allPositions_length]

theorem fullSchedule_nodup (H W : Nat) (pw : Option String)
    (chans : List Nat) (h : chans.Nodup) :
    (fullSchedule H W pw chans).Nodup :=
  (fullSchedule_perm H W pw chans).symm.nodup (allPositions_nodup H W chans h)

/-! ### The embedding loop -/

theorem embedGo_cons (d : List Nat) (bits : Nat) (g : Grid) (p : Pos)
    (rest : List Pos) (k : Nat) :
    embedGo d bits g (p :: rest) k =
      if 8 * d.length ≤ k * bits then g
      else embedGo d bits
        (updateG g p (writeSample bits (g p) (embedVal d bits k))) rest (k + 1) :=
  rfl

theorem embedGo_not_mem (d : List Nat) (bits : Nat) :
    ∀ (ps : List Pos) (g : Grid) (k : Nat) (q : Pos), q ∉ ps →
      embedGo d bits g ps k q = g q := by
  intro ps
  induction ps with
  | nil => intro g k q _; rfl
  | cons p rest ih =>
    intro g k q hq
    simp only [List.mem_cons, not_or] at hq
    rw [embedGo_cons]
    split
    · rfl
    · rw [ih _ _ _ hq.2]
      simp [updateG, hq.1]

theorem embedGo_getElem (d : List Nat) (bits : Nat) :
    ∀ (ps : List Pos) (g : Grid) (k i : Nat) (hi : i < ps.length),
      ps.Nodup → (k + i) * bits < 8 * d.length →
      embedGo d bits g ps k ps[i] =
        writeSample bits (g ps[i]) (embedVal d bits (k + i)) := by
  intro ps
  induction ps with
  | nil => intro g k i hi; simp at hi
  | cons p rest ih =>
    intro g k i hi hnd hki
    have hnobreak : ¬ 8 * d.length ≤ k * bits := by
      have : k * bits ≤ (k + i) * bits := Nat.mul_le_mul_right _ (by omega)
      omega
    rw [embedGo_cons, if_neg hnobreak]
    cases i with
    | zero =>
      simp only [List.getElem_cons_zero]
      rw [embedGo_not_mem _ _ _ _ _ _ (List.nodup_cons.mp hnd).1]
      simp [updateG, Nat.add_zero]
    | succ i =>
      have hi2 : i < rest.length := by
        simp only [List.length_cons] at hi
        omega
      simp only [List.getElem_cons_succ]
      have hrest : rest[i] ≠ p := by
        intro hc
        exact (List.nodup_cons.mp hnd).1 (hc ▸ List.getElem_mem _)
      have hadd : k + 1 + i = k + (i + 1) := by omega
      rw [ih _ (k + 1) i hi2 (List.nodup_cons.mp hnd).2
        (by rw [hadd]; exact hki)]
      rw [hadd]
      simp [updateG, hrest]

theorem embedGo_upper (d : List Nat) (bits : Nat) (hb : bits ≤ 8) :
    ∀ (ps : List Pos) (g : Grid) (k : Nat), (∀ q, g q < 256) →
      (∀ q, embedGo d bits g ps k q < 256) ∧
      (∀ q, embedGo d bits g ps k q >>> bits = g q >>> bits) := by
  intro ps
  induction ps with
  | nil => intro g k hg; exact ⟨hg, fun _ => rfl⟩
  | cons p rest ih =>
    intro g k hg
    rw [embedGo_cons]
    by_cases hbr : 8 * d.length ≤ k * bits
    · simp only [if_pos hbr]
      exact ⟨hg, by simp⟩
    · simp only [if_neg hbr]
      have hg2 : ∀ q,
          updateG g p (writeSample bits (g p) (embedVal d bits k)) q < 256 := by
        intro q
        unfold updateG
        split
        · exact writeSample_lt _ _ _ hb (hg p)
        · exact hg q
      refine ⟨(ih _ _ hg2).1, fun q => ?_⟩
      rw [(ih _ _ hg2).2 q]
      unfold updateG
      split
      · subst q
        exact writeSample_shiftRight _ _ _ hb (hg p)
      · rfl

/-! ### The extraction loop -/

theorem groupBits_length (bits v : Nat) : (groupBits bits v).length = bits := by
  simp [groupBits]

theorem collectedBits_length (g : Grid) (ps : List Pos) (bits L : Nat) :
    (collectedBits g ps bits L).length = min (L * 8) (ps.length * bits) := by
  unfold collectedBits
  rw [List.length_take]
  congr 1
  rw [← List.flatMap_def, length_flatMap_const _ _ bits]
  intro p _
  exact groupBits_length bits (g p)

theorem assembleFold_none (bs : List Nat) (i : Nat) (js : List Nat) :
    js.foldl
      (fun acc j => acc.bind fun v => (bs.get? (i + j)).map fun b => (v <<< 1) ||| b)
      none = none := by
  induction js with
  | nil => rfl
  | cons j js ih => simpa [List.foldl_cons] using ih

theorem assembleFold_some (bs : List Nat) (i : Nat) (f : Nat → Nat)
    (js : List Nat) (h : ∀ j ∈ js, bs.get? (i + j) = some (f j)) :
    ∀ v, js.foldl
      (fun acc j => acc.bind fun v => (bs.get? (i + j)).map fun b => (v <<< 1) ||| b)
      (some v) = some (js.foldl (fun v j => (v <<< 1) ||| f j) v) := by
  induction js with
  | nil => intro v; rfl
  | cons j js ih =>
    intro v
    rw [List.foldl_cons, List.foldl_cons, Option.some_bind, h j (by simp),
      Option.map_some']
    exact ih (fun j hj => h j (by simp [hj])) _

theorem assembleByte_eq_some (bs : List Nat) (i : Nat) (f : Nat → Nat)
    (h : ∀ j ∈ List.range 8, bs.get? (i + j) = some (f j)) :
    assembleByte bs i =
      some ((List.range 8).foldl (fun v j => (v <<< 1) ||| f j) 0) := by
  unfold assembleByte
  exact assembleFold_some bs i f (List.range 8) h 0

theorem assembleFold_fail (bs : List Nat) (i : Nat) (js : List Nat)
    (h : ∃ j ∈ js, bs.get? (i + j) = none) :
    ∀ acc, js.foldl
      (fun acc j => acc.bind fun v => (bs.get? (i + j)).map fun b => (v <<< 1) ||| b)
      acc = none := by
  induction js with
  | nil => simp at h
  | cons j js ih =>
    intro acc
    rw [List.foldl_cons]
    match acc with
    | none =>
      rw [Option.none_bind]
      exact assembleFold_none bs i js
    | some v =>
      rcases h with ⟨j2, hj2, hget⟩
      rcases List.mem_cons.mp hj2 with rfl | hmem
      · rw [Option.some_bind, hget, Option.map_none']
        exact assembleFold_none bs i js
      · match hg : bs.get? (i + j) with
        | none =>
          rw [Option.some_bind, Option.map_none']
          exact assembleFold_none bs i js
        | some b => exact ih ⟨j2, hmem, hget⟩ _

theorem assembleByte_eq_none (bs : List Nat) (i : Nat)
    (h : bs.length < i + 8) : assembleByte bs i = none := by
  unfold assembleByte
  by_cases hib : i ≤ bs.length
  · apply assembleFold_fail
    refine ⟨bs.length - i, ?_, ?_⟩
    · simp only [List.mem_range]
      omega
    · rw [List.get?_eq_none]
      omega
  · apply assembleFold_fail
    refine ⟨0, by simp, ?_⟩
    rw [List.get?_eq_none]
    omega

theorem mapM_eq_some_map {α β : Type} (F : α → Option β) (f : α → β) :
    ∀ l : List α, (∀ a ∈ l, F a = some (f a)) → l.mapM F = some (l.map f) := by
  intro l
  induction l with
  | nil => intro _; rfl
  | cons a l ih =>
    intro h
    rw [List.mapM_cons, h a (by simp), ih (fun x hx => h x (by simp [hx]))]
    rfl

theorem mapM_eq_none {α β : Type} (F : α → Option β) :
    ∀ l : List α, (∃ a ∈ l, F a = none) → l.mapM F = none := by
  intro l
  induction l with
  | nil => intro h; simp at h
  | cons a l ih =>
    intro h
    rw [List.mapM_cons]
    rcases h with ⟨a2, ha2, hF⟩
    rcases List.mem_cons.mp ha2 with rfl | hmem
    · rw [hF]; rfl
    · match hFa : F a with
      | none => rfl
      | some b => rw [ih ⟨a2, hmem, hF⟩]; rfl

theorem mapM_some_length {α β : Type} (F : α → Option β) :
    ∀ (l : List α) (r : List β), l.mapM F = some r → r.length = l.length := by
  intro l
  induction l with
  | nil =>
    intro r h
    simp only [List.mapM_nil] at h
    cases h
    rfl
  | cons a l ih =>
    intro r h
    rw [List.mapM_cons] at h
    match hFa : F a with
    | none => rw [hFa] at h; cases h
    | some b =>
      rw [hFa] at h
      match hM : l.mapM F with
      | none => rw [hM] at h; cases h
      | some rs =>
        rw [hM] at h
        cases h
        simp [ih rs hM]

theorem mapM_isSome {α β : Type} (F : α → Option β) :
    ∀ l : List α, (∀ a ∈ l, (F a).isSome) → ∃ r, l.mapM F = some r := by
  intro l
  induction l with
  | nil => intro _; exact ⟨[], rfl⟩
  | cons a l ih =>
    intro h
    obtain ⟨b, hb⟩ := Option.isSome_iff_exists.mp (h a (by simp))
    obtain ⟨r, hr⟩ := ih (fun x hx => h x (by simp [hx]))
    exact ⟨b :: r, by rw [List.mapM_cons, hb, hr]; rfl⟩

theorem assembleByte_isSome (bs : List Nat) (i : Nat) (h : i + 8 ≤ bs.length) :
    (assembleByte bs i).isSome := by
  rw [assembleByte_eq_some bs i (fun j => bs.getD (i + j) 0)]
  · rfl
  · intro j hj
    have hij : i + j < bs.length := by
      simp only [List.mem_range] at hj
      omega
    rw [List.get?_eq_getElem?, List.getElem?_eq_getElem hij,
      List.getD_eq_getElem _ _ hij]

/-- `_extract_data` completes without an `IndexError` exactly when the
supplied positions carry at least `lengthBytes * 8` bits. -/
theorem extractData_isSome_iff (g : Grid) (ps : List Pos) (bits L : Nat) :
    (extractData g ps bits L).isSome ↔ L * 8 ≤ ps.length * bits := by
  constructor
  · intro h
    by_contra hlt
    push_neg at hlt
    have hL : 1 ≤ L := by
      rcases Nat.eq_zero_or_pos L with h0 | h1
      · subst h0; simp at hlt
      · exact h1
    have hnone : extractData g ps bits L = none := by
      unfold extractData
      apply mapM_eq_none
      refine ⟨L - 1, by simp only [List.mem_range]; omega, ?_⟩
      apply assembleByte_eq_none
      rw [collectedBits_length]
      omega
    rw [hnone] at h
    simp at h
  · intro h
    have hlen : (collectedBits g ps bits L).length = L * 8 := by
      rw [collectedBits_length]
      omega
    have hs : ∀ b ∈ List.range L,
        (assembleByte (collectedBits g ps bits L) (8 * b)).isSome := by
      intro b hb
      apply assembleByte_isSome
      rw [hlen]
      simp only [List.mem_range] at hb
      omega
    obtain ⟨r, hr⟩ := mapM_isSome _ (List.range L) hs
    unfold extractData
    rw [hr]
    rfl

/-- `_extract_data` returns exactly `lengthBytes` bytes when it returns. -/
theorem extractData_some_length (g : Grid) (ps : List Pos) (bits L : Nat)
    (r : List Nat) (h : extractData g ps bits L = some r) : r.length = L := by
  have := mapM_some_length _ _ _ h
  simpa using this

theorem foldl_congr_mem {α β : Type} (f f2 : β → α → β) :
    ∀ (l : List α) (b : β), (∀ a ∈ l, ∀ v, f v a = f2 v a) →
      l.foldl f b = l.foldl f2 b := by
  intro l
  induction l with
  | nil => intro _ _; rfl
  | cons a l ih =>
    intro b h
    rw [List.foldl_cons, List.foldl_cons, h a (by simp)]
    exact ih _ (fun x hx v => h x (by simp [hx]) v)

theorem bitAt_eight (d : List Nat) (m j : Nat) (hj : j < 8) :
    bitAt d (8 * m + j) = (d.getD m 0 >>> (7 - j)) &&& 1 := by
  unfold bitAt
  have h1 : (8 * m + j) / 8 = m := by omega
  have h2 : (8 * m + j) % 8 = j := by omega
  rw [h1, h2]

theorem byte_from_bits (d : List Nat) (m : Nat) (hm : m < d.length)
    (hb : ∀ b ∈ d, b < 256) :
    (List.range 8).foldl (fun v j => (v <<< 1) ||| bitAt d (8 * m + j)) 0 =
      d.getD m 0 := by
  have hx : d.getD m 0 < 256 := by
    rw [List.getD_eq_getElem _ _ hm]
    exact hb _ (List.getElem_mem _)
  rw [foldl_congr_mem _ (fun v j => (v <<< 1) ||| ((d.getD m 0 >>> (7 - j)) &&& 1))
    _ _ (fun j hj v => by rw [bitAt_eight d m j (by simpa using hj)])]
  exact byte_foldl _ hx

/-- The bits collected by extraction over a slice of the same schedule the
embedding wrote are exactly the corresponding original data bits. -/
theorem flatten_groups (d : List Nat) (bits : Nat) (hbits : bits = 1 ∨ bits = 2)
    (full : List Pos) (takeN s : Nat) (g : Grid)
    (hnd : (full.take takeN).Nodup) :
    ∀ cnt, s + cnt ≤ full.length → s + cnt ≤ takeN →
      (s + cnt) * bits ≤ 8 * d.length →
      (((full.drop s).take cnt).map fun p =>
          groupBits bits (embedData g d (full.take takeN) bits p)).flatten
        = (List.range (cnt * bits)).map fun t => bitAt d (s * bits + t) := by
  intro cnt
  induction cnt with
  | zero => simp
  | succ c ih =>
    intro h1 h2 h3
    have hsc : s + c < full.length := by omega
    have hc : (full.drop s)[c]? = some full[s + c] := by
      rw [List.getElem?_drop]
      exact List.getElem?_eq_getElem (by omega)
    rw [List.take_succ, hc]
    simp only [Option.toList_some]
    rw [List.map_append, List.flatten_append]
    rw [ih (by omega) (by omega)
      (le_trans (Nat.mul_le_mul_right _ (by omega)) h3)]
    have hps : s + c < (full.take takeN).length := by
      rw [List.length_take]
      omega
    have htake : (full.take takeN)[s + c] = full[s + c] := List.getElem_take _
    have hg2 : embedData g d (full.take takeN) bits full[s + c] =
        writeSample bits (g full[s + c]) (embedVal d bits (s + c)) := by
      unfold embedData
      have hbitspos : 0 < bits := by rcases hbits with h | h <;> omega
      have hmul : (s + c) * bits < (s + (c + 1)) * bits :=
        (Nat.mul_lt_mul_right hbitspos).mpr (by omega)
      have hlt : (0 + (s + c)) * bits < 8 * d.length := by
        rw [Nat.zero_add]
        exact lt_of_lt_of_le hmul h3
      have h5 := embedGo_getElem d bits (full.take takeN) g 0 (s + c) hps hnd hlt
      simp only [htake, Nat.zero_add] at h5
      exact h5
    simp only [List.map_cons, List.map_nil, List.flatten_cons, List.flatten_nil,
      List.append_nil]
    rw [hg2, groupBits_writeSample d bits _ _ hbits]
    have hrng : (c + 1) * bits = c * bits + bits := by ring
    rw [hrng, List.range_add, List.map_append]
    have hone : (List.range bits).map (fun j => bitAt d ((s + c) * bits + j)) =
        ((List.range bits).map fun x => c * bits + x).map
          (fun t => bitAt d (s * bits + t)) := by
      rw [List.map_map]
      apply List.map_congr_left
      intro j _
      simp only [Function.comp_apply]
      congr 1
      ring
    rw [hone]

/-- Extracting `L` bytes from schedule positions `[s, s+cnt)` of a grid in
which the framed data `d` was embedded over the prefix `[0, takeN)` of the
same schedule recovers bytes `s*bits/8 .. s*bits/8 + L` of `d`. -/
theorem extractData_embedded (d : List Nat) (bits : Nat)
    (hbits : bits = 1 ∨ bits = 2) (full : List Pos) (takeN s cnt L : Nat)
    (g : Grid) (hnd : (full.take takeN).Nodup)
    (h1 : s + cnt ≤ full.length) (h2 : s + cnt ≤ takeN)
    (h3 : (s + cnt) * bits ≤ 8 * d.length)
    (hcb : cnt * bits = L * 8)
    (hmod : s * bits % 8 = 0)
    (hlen : s * bits / 8 + L ≤ d.length)
    (hdb : ∀ b ∈ d, b < 256) :
    extractData (embedData g d (full.take takeN) bits) ((full.drop s).take cnt)
      bits L = some ((List.range L).map fun b => d.getD (s * bits / 8 + b) 0) := by
  have hcoll : collectedBits (embedData g d (full.take takeN) bits)
      ((full.drop s).take cnt) bits L
      = (List.range (L * 8)).map fun t => bitAt d (s * bits + t) := by
    unfold collectedBits
    rw [flatten_groups d bits hbits full takeN s g hnd cnt h1 h2 h3, hcb]
    exact List.take_of_length_le (by simp)
  unfold extractData
  rw [hcoll]
  apply mapM_eq_some_map
  intro b hb
  simp only [List.mem_range] at hb
  have hbyte : ∀ j ∈ List.range 8,
      ((List.range (L * 8)).map fun t => bitAt d (s * bits + t)).get? (8 * b + j)
        = some (bitAt d (s * bits + (8 * b + j))) := by
    intro j hj
    simp only [List.mem_range] at hj
    rw [List.get?_eq_getElem?, List.getElem?_map, List.getElem?_range (by omega)]
    rfl
  rw [assembleByte_eq_some _ _ _ hbyte]
  congr 1
  have harg : ∀ j, s * bits + (8 * b + j) = 8 * (s * bits / 8 + b) + j := by
    intro j
    omega
  rw [foldl_congr_mem _
    (fun v j => (v <<< 1) ||| bitAt d (8 * (s * bits / 8 + b) + j)) _ _
    (fun j _ v => by rw [harg j])]
  exact byte_from_bits d _ (by omega) hdb

theorem range_map_getD_eq_drop_take (d : List Nat) (m L : Nat)
    (h : m + L ≤ d.length) :
    (List.range L).map (fun b => d.getD (m + b) 0) = (d.drop m).take L := by
  apply List.ext_getElem
  · simp only [List.length_map, List.length_range, List.length_take,
      List.length_drop]
    omega
  · intro n h1 h2
    simp only [List.getElem_map, List.getElem_range, List.getElem_take,
      List.getElem_drop]
    rw [List.getD_eq_getElem _ _ (by
      simp only [List.length_map, List.length_range] at h1
      omega)]

/-! ### Frame structure lemmas -/

theorem crc32_and_mask (d : List Nat) : crc32 d &&& 0xFFFFFFFF = crc32 d := by
  rw [show (0xFFFFFFFF : Nat) = 2 ^ 32 - 1 by norm_num,
    Nat.and_pow_two_sub_one_eq_mod]
  exact Nat.mod_eq_of_lt (crc32_lt d)

theorem createPayload_eq (body : List Nat) (c : Option Nat) :
    createPayloadWithHeader body c =
      (MAGIC_BYTES ++ packU32BE body.length ++ packU32BE (storedCrc body c) ++
        packU32BE 0) ++ body := by
  unfold createPayloadWithHeader storedCrc
  match c with
  | some c => simp
  | none => simp

theorem createPayload_length (body : List Nat) (c : Option Nat) :
    (createPayloadWithHeader body c).length = 16 + body.length := by
  rw [createPayload_eq]
  simp only [List.length_append, MAGIC_BYTES, packU32BE, List.length_cons,
    List.length_nil]
  try omega

theorem createPayload_bytes_lt (body : List Nat) (c : Option Nat)
    (hb : ∀ b ∈ body, b < 256) :
    ∀ b ∈ createPayloadWithHeader body c, b < 256 := by
  intro b hmem
  rw [createPayload_eq] at hmem
  simp only [List.append_assoc, List.mem_append] at hmem
  rcases hmem with hm | hm | hm | hm | hm
  · simp only [MAGIC_BYTES, List.mem_cons, List.not_mem_nil, or_false] at hm
    rcases hm with h | h | h | h <;> (subst h; norm_num)
  · exact packU32BE_bytes_lt _ b hm
  · exact packU32BE_bytes_lt _ b hm
  · exact packU32BE_bytes_lt _ b hm
  · exact hb b hm

theorem headerSlice_take (body : List Nat) (c : Option Nat) :
    (createPayloadWithHeader body c).take 16 =
      MAGIC_BYTES ++ packU32BE body.length ++ packU32BE (storedCrc body c) ++
        packU32BE 0 := by
  rw [createPayload_eq]
  have hlen : (MAGIC_BYTES ++ packU32BE body.length ++
      packU32BE (storedCrc body c) ++ packU32BE 0).length = 16 := by
    simp [MAGIC_BYTES, packU32BE]
  rw [← hlen, List.take_left]

theorem headerSlice_drop (body : List Nat) (c : Option Nat) :
    (createPayloadWithHeader body c).drop 16 = body := by
  rw [createPayload_eq]
  have hlen : (MAGIC_BYTES ++ packU32BE body.length ++
      packU32BE (storedCrc body c) ++ packU32BE 0).length = 16 := by
    simp [MAGIC_BYTES, packU32BE]
  rw [← hlen, List.drop_left]

theorem hd16_take4 (a b c : Nat) :
    ((MAGIC_BYTES ++ packU32BE a ++ packU32BE b ++ packU32BE c) : List Nat).take 4
      = MAGIC_BYTES := by
  simp only [List.append_assoc]
  rw [List.take_left' (by rfl : MAGIC_BYTES.length = 4)]

theorem hd16_drop4_take4 (a b c : Nat) :
    (((MAGIC_BYTES ++ packU32BE a ++ packU32BE b ++ packU32BE c) : List Nat).drop
      4).take 4 = packU32BE a := by
  simp only [List.append_assoc]
  rw [List.drop_left' (by rfl : MAGIC_BYTES.length = 4)]
  rw [List.take_left' (by rfl : (packU32BE a).length = 4)]

theorem hd16_drop8_take4 (a b c : Nat) :
    (((MAGIC_BYTES ++ packU32BE a ++ packU32BE b ++ packU32BE c) : List Nat).drop
      8).take 4 = packU32BE b := by
  rw [show MAGIC_BYTES ++ packU32BE a ++ packU32BE b ++ packU32BE c
    = (MAGIC_BYTES ++ packU32BE a) ++ (packU32BE b ++ packU32BE c) by
      simp [List.append_assoc]]
  rw [List.drop_left' (by simp [MAGIC_BYTES, packU32BE] :
    (MAGIC_BYTES ++ packU32BE a).length = 8)]
  rw [List.take_left' (by rfl : (packU32BE b).length = 4)]

theorem validateHeader_iff (hd : List Nat) :
    validateHeader hd = true ↔ hd.length = 16 ∧ hd.take 4 = MAGIC_BYTES := by
  simp [validateHeader, HEADER_SIZE]

theorem validateHeader_hd16 (a b c : Nat) :
    validateHeader (MAGIC_BYTES ++ packU32BE a ++ packU32BE b ++ packU32BE c)
      = true := by
  rw [validateHeader_iff]
  exact ⟨by simp [MAGIC_BYTES, packU32BE], hd16_take4 a b c⟩

/-! ### Capacity arithmetic -/

theorem le_calcCapacity_iff (H W bits nch L : Nat) :
    (L : Int) ≤ calcCapacity H W bits nch ↔
      8 * L + 128 ≤ H * W * bits * nch := by
  unfold calcCapacity
  rw [Int.fdiv_eq_ediv _ (by norm_num), Int.le_ediv_iff_mul_le (by norm_num)]
  have hcast : (W : Int) * (H : Int) * ((bits : Int) * (nch : Int)) =
      ((H * W * bits * nch : Nat) : Int) := by
    push_cast
    ring
  rw [show (HEADER_SIZE : Int) = 16 from rfl, hcast]
  omega

/-! ### Channel name lemmas -/

theorem channelMap_eq_some_cases (c : String) (i : Nat)
    (h : channelMap c = some i) :
    (c = "red" ∧ i = 0) ∨ (c = "green" ∧ i = 1) ∨ (c = "blue" ∧ i = 2) := by
  unfold channelMap at h
  split_ifs at h with h1 h2 h3 <;> simp_all

theorem filterMap_channelMap_length :
    ∀ l : List String, (∀ c ∈ l, channelMap c ≠ none) →
      (l.filterMap channelMap).length = l.length := by
  intro l
  induction l with
  | nil => intro _; rfl
  | cons c cs ih =>
    intro hv
    rw [List.filterMap_cons]
    match hm : channelMap c with
    | none => exact absurd hm (hv c (by simp))
    | some i =>
      simp only [List.length_cons]
      rw [ih (fun x hx => hv x (by simp [hx]))]

theorem filterMap_channelMap_nodup :
    ∀ l : List String, l.Nodup → (∀ c ∈ l, channelMap c ≠ none) →
      (l.filterMap channelMap).Nodup := by
  intro l
  induction l with
  | nil => intro _ _; exact List.nodup_nil
  | cons c cs ih =>
    intro hnd hv
    rw [List.filterMap_cons]
    match hm : channelMap c with
    | none => exact absurd hm (hv c (by simp))
    | some i =>
      rw [List.nodup_cons]
      refine ⟨?_, ih (List.nodup_cons.mp hnd).2 (fun x hx => hv x (by simp [hx]))⟩
      intro hmem
      obtain ⟨c2, hc2, hm2⟩ := List.mem_filterMap.mp hmem
      have hcase := channelMap_eq_some_cases c i hm
      have hcase2 := channelMap_eq_some_cases c2 i hm2
      have hcc : c = c2 := by
        rcases hcase with ⟨h1, h2⟩ | ⟨h1, h2⟩ | ⟨h1, h2⟩ <;>
          rcases hcase2 with ⟨h3, h4⟩ | ⟨h3, h4⟩ | ⟨h3, h4⟩ <;>
            (subst h2; first | omega | (rw [h1, h3]))
      exact (List.nodup_cons.mp hnd).1 (hcc ▸ hc2)

theorem getChannelIndices_length (channels : List String) (hne : channels ≠ [])
    (hv : ∀ c ∈ channels, channelMap c ≠ none) :
    (getChannelIndices channels).length = channels.length := by
  unfold getChannelIndices
  rw [if_neg (by simpa using hne)]
  exact filterMap_channelMap_length channels hv

theorem getChannelIndices_nodup (channels : List String) (hne : channels ≠ [])
    (hnd : channels.Nodup) (hv : ∀ c ∈ channels, channelMap c ≠ none) :
    (getChannelIndices channels).Nodup := by
  unfold getChannelIndices
  rw [if_neg (by simpa using hne)]
  exact filterMap_channelMap_nodup channels hnd hv

/-! ### Engine equations -/

theorem embedModel_ok (fernetEnc : List Nat → List Nat → List Nat)
    (salt : List Nat) (g : Grid) (H W C : Nat) (payload : List Nat)
    (bits : Nat) (channels : List String) (pw : Option String) (enc : Bool)
    (hcap : (payload.length : Int) ≤ calcCapacity H W bits channels.length) :
    embedModel fernetEnc salt g H W C payload bits channels pw enc =
      .ok (embedData g (embedFramed fernetEnc salt payload pw enc)
        (genPositions H W
          (((embedFramed fernetEnc salt payload pw enc).length * 8 + bits - 1) /
            bits) pw (getChannelIndices channels) 0) bits) := by
  unfold embedModel
  rw [if_neg (by exact not_lt.mpr hcap)]

theorem embedModel_err (fernetEnc : List Nat → List Nat → List Nat)
    (salt : List Nat) (g : Grid) (H W C : Nat) (payload : List Nat)
    (bits : Nat) (channels : List String) (pw : Option String) (enc : Bool)
    (hcap : (payload.length : Int) > calcCapacity H W bits channels.length) :
    embedModel fernetEnc salt g H W C payload bits channels pw enc =
      .error .capacityExceeded := by
  unfold embedModel
  rw [if_pos hcap]

theorem genPositions_zero (H W n : Nat) (pw : Option String)
    (chans : List Nat) :
    genPositions H W n pw chans 0 = (fullSchedule H W pw chans).take n := by
  unfold genPositions
  rw [List.drop_zero]

/-- Extraction from a grid in which a full frame was embedded over the
same schedule walks the header and payload stages successfully and hands
the framed body to the decryption / CRC stage. -/
theorem extract_of_embed_frame (fernetDec : List Nat → List Nat → Option (List Nat))
    (g : Grid) (H W C : Nat) (bits : Nat) (channels : List String)
    (pw : Option String) (encrypt : Bool) (body : List Nat) (crcOpt : Option Nat)
    (hbits : bits = 1 ∨ bits = 2)
    (hchnd : (getChannelIndices channels).Nodup)
    (hfitN : 8 * (16 + body.length) ≤
      bits * (H * W * (getChannelIndices channels).length))
    (hdb : ∀ b ∈ body, b < 256)
    (hB32 : body.length < 2 ^ 32)
    (hC32 : storedCrc body crcOpt < 2 ^ 32) :
    extractModel fernetDec
      (embedData g (createPayloadWithHeader body crcOpt)
        (genPositions H W
          (((createPayloadWithHeader body crcOpt).length * 8 + bits - 1) / bits)
          pw (getChannelIndices channels) 0) bits)
      H W C bits channels pw encrypt =
      match (if encrypt && pwTruthy pw then decryptPayload fernetDec body
        else some body) with
      | none => .error .decryptionFailure
      | some plain =>
        if crc32 plain ≠ storedCrc body crcOpt then .error .integrityError
        else .ok plain := by
  have hbpos : 0 < bits := by rcases hbits with h | h <;> omega
  rw [genPositions_zero]
  unfold extractModel
  set chans := getChannelIndices channels with hchans
  set full := fullSchedule H W pw chans with hfull
  set framed := createPayloadWithHeader body crcOpt with hframed
  set B := body.length with hB
  have flen : framed.length = 16 + B := createPayload_length body crcOpt
  set needed := (framed.length * 8 + bits - 1) / bits with hneeded
  set hN := (HEADER_SIZE * 8 + bits - 1) / bits with hhN
  set pN := (B * 8 + bits - 1) / bits with hpN
  have hfullLen : full.length = H * W * chans.length :=
    fullSchedule_length H W pw chans
  have hfit2 : 8 * (16 + B) ≤ bits * full.length := by
    rw [hfullLen]
    exact hfitN
  have harith : needed = hN + pN ∧ hN * bits = 128 ∧ pN * bits = B * 8 ∧
      hN + pN ≤ full.length ∧ (0 + hN) * bits ≤ 8 * framed.length ∧
      (hN + pN) * bits ≤ 8 * framed.length ∧ hN * bits / 8 = 16 ∧
      hN * bits % 8 = 0 := by
    rw [hneeded, hhN, hpN, flen, HEADER_SIZE]
    rcases hbits with h | h <;> subst h <;> omega
  obtain ⟨hsplit, hNbits, hpNbits, hle, hF5, hF6, hF7, hF8⟩ := harith
  have hnd2 : (full.take needed).Nodup :=
    ((List.take_sublist _ _).nodup) (fullSchedule_nodup H W pw chans hchnd)
  have hfrb : ∀ b ∈ framed, b < 256 := createPayload_bytes_lt body crcOpt hdb
  have hhdr : extractData (embedData g framed (full.take needed) bits)
      (genPositions H W hN pw chans 0) bits HEADER_SIZE =
      some (framed.take 16) := by
    rw [genPositions_zero, show full.take hN = (full.drop 0).take hN
      by rw [List.drop_zero]]
    rw [show (HEADER_SIZE : Nat) = 16 from rfl]
    rw [extractData_embedded framed bits hbits full needed 0 hN 16 g hnd2
      (by rw [Nat.zero_add]; exact le_trans (Nat.le_add_right hN pN) hle)
      (by rw [Nat.zero_add, hsplit]; exact Nat.le_add_right hN pN)
      (by exact hF5)
      (by rw [hNbits])
      (by simp)
      (by rw [flen]; omega) hfrb]
    congr 1
    have h16 : 0 * bits / 8 = 0 := by simp
    rw [h16]
    have hc := range_map_getD_eq_drop_take framed 0 16 (by omega)
    simp only [Nat.zero_add] at hc ⊢
    rw [hc, List.drop_zero]
  simp only [hhdr]
  have hval : validateHeader (framed.take 16) = true := by
    rw [hframed, headerSlice_take]
    exact validateHeader_hd16 _ _ _
  rw [hval]
  simp only [Bool.not_true, Bool.false_eq_true, if_false]
  have htake16 : framed.take 16 = MAGIC_BYTES ++ packU32BE B ++
      packU32BE (storedCrc body crcOpt) ++ packU32BE 0 := by
    rw [hframed, headerSlice_take, hB]
  have hplen : parseU32BE (((framed.take 16).drop 4).take 4) = B := by
    rw [htake16, hd16_drop4_take4]
    exact parseU32BE_packU32BE B hB32
  have hpcrc : parseU32BE (((framed.take 16).drop 8).take 4) =
      storedCrc body crcOpt := by
    rw [htake16, hd16_drop8_take4]
    exact parseU32BE_packU32BE _ hC32
  rw [hplen, hpcrc]
  have hpay : extractData (embedData g framed (full.take needed) bits)
      (genPositions H W pN pw chans hN) bits B = some body := by
    show extractData _ ((full.drop hN).take pN) bits B = some body
    rw [extractData_embedded framed bits hbits full needed hN pN B g hnd2
      (by exact hle)
      (by rw [hsplit])
      (by exact hF6)
      (by rw [hpNbits])
      (by exact hF8)
      (by rw [hF7, flen]) hfrb]
    congr 1
    rw [hF7]
    rw [range_map_getD_eq_drop_take framed 16 B (by rw [flen])]
    rw [hframed, headerSlice_drop]
    exact List.take_length body
  simp only [hpay]

/-! ### Additional frame slice helpers -/

theorem frame_slice (l16 body : List Nat) (h : l16.length = 16) (i j : Nat)
    (hij : i + j ≤ 16) :
    ((l16 ++ body).drop i).take j = (l16.drop i).take j := by
  rw [List.drop_append_of_le_length (by omega),
    List.take_append_of_le_length (by rw [List.length_drop]; omega)]

theorem hd16_drop12_take4 (a b c : Nat) :
    (((MAGIC_BYTES ++ packU32BE a ++ packU32BE b ++ packU32BE c) : List Nat).drop
      12).take 4 = packU32BE c := by
  rw [show MAGIC_BYTES ++ packU32BE a ++ packU32BE b ++ packU32BE c
    = (MAGIC_BYTES ++ packU32BE a ++ packU32BE b) ++ packU32BE c by
      simp [List.append_assoc]]
  rw [List.drop_left' (by simp [MAGIC_BYTES, packU32BE] :
    (MAGIC_BYTES ++ packU32BE a ++ packU32BE b).length = 12)]
  rw [show (4 : Nat) = (packU32BE c).length from rfl, List.take_length]

theorem hd16_len (a b c : Nat) :
    ((MAGIC_BYTES ++ packU32BE a ++ packU32BE b ++ packU32BE c) : List Nat).length
      = 16 := by
  simp [MAGIC_BYTES, packU32BE]

/-! ### Block-start enumeration lemmas (for the bit-plane detector) -/

theorem range_filter_mod8 (m : Nat) :
    (List.range m).filter (fun i => i % 8 == 0) =
    (List.range ((m + 7) / 8)).map (fun i => 8 * i) := by
  induction m with
  | zero => rfl
  | succ m ih =>
    rw [List.range_succ, List.filter_append, ih]
    by_cases h : m % 8 = 0
    · have h1 : (m + 1 + 7) / 8 = (m + 7) / 8 + 1 := by omega
      have h2 : 8 * ((m + 7) / 8) = m := by omega
      rw [h1, List.range_succ, List.map_append]
      simp [h, h2]
    · have h1 : (m + 1 + 7) / 8 = (m + 7) / 8 := by omega
      rw [h1]
      simp [List.filter_cons, h]

theorem range_filter_lt (P : Nat → Bool) (d m : Nat) :
    (List.range d).filter (fun i => P i && decide (i < m)) =
    (List.range (min d m)).filter P := by
  induction d with
  | zero => simp
  | succ d ih =>
    rw [List.range_succ, List.filter_append, ih]
    by_cases h : d < m
    · have h1 : min (d + 1) m = min d m + 1 := by omega
      have h2 : min d m = d := by omega
      rw [h1, List.range_succ, List.filter_append, h2]
      simp [List.filter_cons, h]
    · have h1 : min (d + 1) m = min d m := by omega
      rw [h1]
      simp [h]

theorem specBlockStartsAmended_eq (d : Nat) :
    specBlockStartsAmended d = pyBlockStarts d := by
  unfold specBlockStartsAmended pyBlockStarts
  have hcong : ((List.range d).filter fun i => i % 8 == 0 && i + 8 < d) =
      (List.range d).filter (fun i => (i % 8 == 0) && decide (i < d - 8)) := by
    apply List.filter_congr
    intro i hi
    have hde : decide (i + 8 < d) = decide (i < d - 8) := by
      rw [decide_eq_decide]
      omega
    rw [hde]
  rw [hcong, range_filter_lt, min_eq_right (Nat.sub_le d 8), range_filter_mod8]

/-! ### Aggregator lemmas -/

theorem le_foldl_max (xs : List ℚ) : ∀ x : ℚ, x ≤ xs.foldl max x := by
  induction xs with
  | nil => intro x; simp
  | cons y ys ih => intro x; exact le_trans (le_max_left x y) (ih (max x y))

/-! ### Claim theorems -/

/-- Claim C3: the position schedule generator is deterministic — two
calls with identical image shape, selected channels, password, start
index and count return identical sequences — and, across the embed and
extract calls, the header slice at offset 0 and the payload slice at the
header offset are consistent contiguous slices of one schedule. -/
theorem C3_schedule_deterministic (H W count start n m : Nat)
    (pw : Option String) (chans : List Nat) :
    genPositions H W count pw chans start = genPositions H W count pw chans start
    ∧ genPositions H W n pw chans 0 ++ genPositions H W m pw chans n =
      genPositions H W (n + m) pw chans 0 := by
  refine ⟨rfl, ?_⟩
  unfold genPositions
  simp only [List.drop_zero]
  exact (List.take_add _ _ _).symm

/-- Claim C5: the framed bytes are a 16-byte header — the ASCII magic
"STEG", the big-endian u32 body length, the big-endian u32 CRC-32 and a
reserved zero u32 — followed by exactly the body; the header is never
encrypted, and with encryption enabled the stored CRC-32 is the CRC-32 of
the original plaintext payload, not of the ciphertext. -/
theorem C5_frame_layout (fernetEnc : List Nat → List Nat → List Nat)
    (salt payload : List Nat) (pw : Option String) (encrypt : Bool)
    (body : List Nat) (crcOpt : Option Nat) (hlen : body.length < 2 ^ 32) :
    ((createPayloadWithHeader body crcOpt).length = 16 + body.length
      ∧ (createPayloadWithHeader body crcOpt).take 4 = MAGIC_BYTES
      ∧ parseU32BE (((createPayloadWithHeader body crcOpt).drop 4).take 4) =
          body.length
      ∧ ((createPayloadWithHeader body crcOpt).drop 12).take 4 = packU32BE 0
      ∧ (createPayloadWithHeader body crcOpt).drop 16 = body)
    ∧ ((encrypt && pwTruthy pw) = true →
        embedFramed fernetEnc salt payload pw encrypt =
          createPayloadWithHeader (encryptPayload fernetEnc salt payload)
            (some (crc32 payload &&& 0xFFFFFFFF))
        ∧ parseU32BE (((embedFramed fernetEnc salt payload pw
            encrypt).drop 8).take 4) = crc32 payload) := by
  constructor
  · refine ⟨createPayload_length body crcOpt, ?_, ?_, ?_, headerSlice_drop body crcOpt⟩
    · rw [createPayload_eq,
        List.take_append_of_le_length (by rw [hd16_len]; omega)]
      exact hd16_take4 _ _ _
    · rw [createPayload_eq, frame_slice _ _ (hd16_len _ _ _) 4 4 (by omega),
        hd16_drop4_take4]
      exact parseU32BE_packU32BE _ hlen
    · rw [createPayload_eq, frame_slice _ _ (hd16_len _ _ _) 12 4 (by omega),
        hd16_drop12_take4]
  · intro henc
    have hfr : embedFramed fernetEnc salt payload pw encrypt =
        createPayloadWithHeader (encryptPayload fernetEnc salt payload)
          (some (crc32 payload &&& 0xFFFFFFFF)) := by
      unfold embedFramed
      rw [if_pos henc]
    refine ⟨hfr, ?_⟩
    rw [hfr, createPayload_eq, frame_slice _ _ (hd16_len _ _ _) 8 4 (by omega),
      hd16_drop8_take4]
    rw [show storedCrc (encryptPayload fernetEnc salt payload)
      (some (crc32 payload &&& 0xFFFFFFFF)) = crc32 payload &&& 0xFFFFFFFF
      from rfl, crc32_and_mask]
    exact parseU32BE_packU32BE _ (crc32_lt payload)

/-- Witness for C5 at a concrete body and an encrypted instance. -/
theorem C5_frame_layout_witness :
    (([5, 6, 7] : List Nat).length < 2 ^ 32) ∧
      (createPayloadWithHeader [5, 6, 7] none).drop 16 = [5, 6, 7] ∧
      parseU32BE (((embedFramed feId salt16 [9] (some "p") true).drop 8).take 4)
        = crc32 [9] := by
  refine ⟨by decide, ?_, ?_⟩
  · exact (C5_frame_layout feId salt16 [9] (some "p") true [5, 6, 7] none
      (by decide)).1.2.2.2.2
  · exact ((C5_frame_layout feId salt16 [9] (some "p") true [5, 6, 7] none
      (by decide)).2 (by decide)).2

/-- Claim C2 (amended): the capacity equals
`floor((H*W*bitDepth*|channelSet| - 128) / 8)`; a payload of at most (in
particular exactly) capacity bytes always makes `embed` return a result,
while any larger payload — capacity+1 in particular — makes `embed` raise
`CapacityExceeded`, for every grid alike (so the check precedes any pixel
mutation).  Contrary to the claim, a schedule shorter than header plus
framed payload does NOT raise `CapacityExceeded`: embedding silently
truncates (see the counterexample). -/
theorem C2_capacity_boundary (fernetEnc : List Nat → List Nat → List Nat)
    (salt : List Nat) (g : Grid) (H W C : Nat) (payload : List Nat)
    (bits : Nat) (channels : List String) (pw : Option String) (enc : Bool) :
    (calcCapacity H W bits channels.length =
      Int.fdiv ((H : Int) * W * bits * channels.length - 128) 8)
    ∧ ((payload.length : Int) ≤ calcCapacity H W bits channels.length →
        ∃ g2, embedModel fernetEnc salt g H W C payload bits channels pw enc =
          .ok g2)
    ∧ ((payload.length : Int) > calcCapacity H W bits channels.length →
        embedModel fernetEnc salt g H W C payload bits channels pw enc =
          .error .capacityExceeded) := by
  refine ⟨?_, ?_, ?_⟩
  · show Int.fdiv ((W : Int) * (H : Int) * ((bits : Int) * (channels.length : Int))
        - (HEADER_SIZE : Int) * 8) 8 = _
    have harg : (W : Int) * (H : Int) * ((bits : Int) * (channels.length : Int))
        - (HEADER_SIZE : Int) * 8 =
        (H : Int) * W * bits * channels.length - 128 := by
      rw [show (HEADER_SIZE : Int) = 16 from rfl]
      ring
    rw [harg]
  · intro hcap
    exact ⟨_, embedModel_ok fernetEnc salt g H W C payload bits channels pw enc
      hcap⟩
  · intro hcap
    exact embedModel_err fernetEnc salt g H W C payload bits channels pw enc hcap

/-- Witness for C2: a payload of exactly the capacity (8 bytes on an
8x8 RGB grid at 1 bit) succeeds; 9 bytes raise `CapacityExceeded`. -/
theorem C2_capacity_boundary_witness :
    ((([1, 2, 3, 4, 5, 6, 7, 8] : List Nat).length : Int) =
        calcCapacity 8 8 1 rgbNames.length
      ∧ ∃ g2, embedModel feId salt16 (constGrid 170) 8 8 3
          [1, 2, 3, 4, 5, 6, 7, 8] 1 rgbNames none false = .ok g2)
    ∧ (((List.replicate 9 0 : List Nat).length : Int) >
        calcCapacity 8 8 1 rgbNames.length
      ∧ embedModel feId salt16 (constGrid 170) 8 8 3 (List.replicate 9 0) 1
          rgbNames none false = .error .capacityExceeded) := by
  constructor
  · exact ⟨by decide, (C2_capacity_boundary feId salt16 (constGrid 170) 8 8 3
      [1, 2, 3, 4, 5, 6, 7, 8] 1 rgbNames none false).2.1 (by decide)⟩
  · exact ⟨by decide, (C2_capacity_boundary feId salt16 (constGrid 170) 8 8 3
      (List.replicate 9 0) 1 rgbNames none false).2.2 (by decide)⟩

/-- Counterexample for C2: with encryption the framed body needs more
schedule positions than the 6x8 RGB grid provides (272 > 144), yet embed
does not raise `CapacityExceeded` — it returns a stego grid, silently
truncating the embedded data. -/
theorem C2_capacity_boundary_counterexample :
    1 * (6 * 8 * 3) <
      ((embedFramed feId salt16 [1, 2] (some "k") true).length * 8 + 1 - 1) / 1
    ∧ (embedModel feId salt16 (constGrid 170) 6 8 3 [1, 2] 1 rgbNames (some "k")
        true).isOk = true := by
  constructor
  · decide
  · decide

/-- Claim C4 (amended): the engine performs no configuration validation.
An empty channel list is silently replaced by the default `[0, 1, 2]`, so
extraction with an empty channel set behaves exactly like extraction with
all of red, green and blue; embedding with an empty channel list fails,
but with `CapacityExceeded` (the capacity becomes negative), not
`InvalidConfig`; and no `bitDepth` validation exists in the engine at all
(the API layer checks it for the embed endpoint only). -/
theorem C4_no_invalid_config (fernetDec : List Nat → List Nat → Option (List Nat))
    (fernetEnc : List Nat → List Nat → List Nat) (salt : List Nat) (g : Grid)
    (H W C bits : Nat) (payload : List Nat) (pw : Option String) (enc : Bool) :
    getChannelIndices [] = [0, 1, 2]
    ∧ extractModel fernetDec g H W C bits [] pw enc =
        extractModel fernetDec g H W C bits ["red", "green", "blue"] pw enc
    ∧ embedModel fernetEnc salt g H W C payload bits [] pw enc =
        .error .capacityExceeded := by
  refine ⟨rfl, rfl, ?_⟩
  apply embedModel_err
  have hneg : calcCapacity H W bits ([] : List String).length = -16 := by
    unfold calcCapacity
    norm_num [HEADER_SIZE]
    decide
  rw [hneg]
  have := Int.natCast_nonneg payload.length
  omega

/-- Counterexample for C4: extraction with an empty channel set does not
raise `InvalidConfig` — it proceeds with the default channels and
recovers the embedded byte; embedding with bitDepth 3 also proceeds
without any configuration error. -/
theorem C4_counterexample :
    extractModel fdId c4Stego 8 8 3 1 [] none false = .ok [7]
    ∧ (embedModel feId salt16 (constGrid 170) 8 8 3 [7] 3 rgbNames none
        false).isOk = true := by
  constructor
  · decide
  · decide

/-- Claim C10: `_extract_data` returns exactly `length_bytes` bytes and
performs no out-of-range access exactly when the supplied positions carry
enough bits (`len(positions) * bits ≥ length_bytes * 8`); and when
`extract` decodes a header whose u32 length field requires more schedule
positions than the image provides, the truncated position slice violates
this precondition and extraction fails with the unspecified index error,
not one of the specified error kinds. -/
theorem C10_extract_data_precondition :
    (∀ (g : Grid) (ps : List Pos) (bits L : Nat),
      (extractData g ps bits L).isSome ↔ L * 8 ≤ ps.length * bits)
    ∧ (∀ (g : Grid) (ps : List Pos) (bits L : Nat) (r : List Nat),
        extractData g ps bits L = some r → r.length = L)
    ∧ (extractModel fdId c10Grid 6 8 3 1 rgbNames none false =
        .error .indexError
      ∧ validateHeader c10Header = true
      ∧ (genPositions 6 8 ((500 * 8 + 1 - 1) / 1) none [0, 1, 2] 128).length * 1
          < 500 * 8) := by
  refine ⟨extractData_isSome_iff, extractData_some_length, ?_, ?_, ?_⟩
  · decide
  · decide
  · decide

/-- Witness for C10 at a concrete grid and position list. -/
theorem C10_extract_data_precondition_witness :
    extractData (constGrid 0) (allPositions 4 4 [0]) 1 2 = some [0, 0]
    ∧ ([0, 0] : List Nat).length = 2 := by
  refine ⟨by decide, ?_⟩
  exact C10_extract_data_precondition.2.1 (constGrid 0) (allPositions 4 4 [0])
    1 2 [0, 0] (by decide)

/-- Claim C6: `extract` raises `InvalidFrame` exactly when the decoded
16-byte header (which always has exactly 16 bytes when decoding succeeds)
has a magic other than "STEG"; with encryption enabled it raises
`DecryptionFailure` exactly when the cipher rejects the extracted body;
and otherwise raises `IntegrityError` exactly when the CRC-32 of the
recovered plaintext differs from the header CRC, returning the plaintext
exactly when all checks pass. -/
theorem C6_extract_error_taxonomy
    (fernetDec : List Nat → List Nat → Option (List Nat)) (g : Grid)
    (H W C bits : Nat) (channels : List String) (pw : Option String)
    (encrypt : Bool) :
    (extractData g (genPositions H W ((HEADER_SIZE * 8 + bits - 1) / bits) pw
        (getChannelIndices channels) 0) bits HEADER_SIZE = none →
      extractModel fernetDec g H W C bits channels pw encrypt =
        .error .indexError)
    ∧ (∀ hd, extractData g (genPositions H W ((HEADER_SIZE * 8 + bits - 1) / bits)
        pw (getChannelIndices channels) 0) bits HEADER_SIZE = some hd →
      (extractModel fernetDec g H W C bits channels pw encrypt =
          .error .invalidFrame ↔ hd.take 4 ≠ MAGIC_BYTES)
      ∧ (hd.take 4 = MAGIC_BYTES →
        ∀ raw, extractData g (genPositions H W
            ((parseU32BE ((hd.drop 4).take 4) * 8 + bits - 1) / bits) pw
            (getChannelIndices channels) ((HEADER_SIZE * 8 + bits - 1) / bits))
            bits (parseU32BE ((hd.drop 4).take 4)) = some raw →
          (extractModel fernetDec g H W C bits channels pw encrypt =
              .error .decryptionFailure ↔
            ((encrypt && pwTruthy pw) = true ∧
              decryptPayload fernetDec raw = none))
          ∧ (∀ plain, (if encrypt && pwTruthy pw then
                decryptPayload fernetDec raw else some raw) = some plain →
              (extractModel fernetDec g H W C bits channels pw encrypt =
                  .error .integrityError ↔
                crc32 plain ≠ parseU32BE ((hd.drop 8).take 4))
              ∧ (extractModel fernetDec g H W C bits channels pw encrypt =
                  .ok plain ↔
                crc32 plain = parseU32BE ((hd.drop 8).take 4))))) := by
  constructor
  · intro h
    unfold extractModel
    rw [h]
  · intro hd hhd
    have hlen16 : hd.length = 16 := extractData_some_length _ _ _ _ _ hhd
    constructor
    · by_cases hm : hd.take 4 = MAGIC_BYTES
      · have hv : validateHeader hd = true := (validateHeader_iff hd).mpr ⟨hlen16, hm⟩
        unfold extractModel
        simp only [hhd, hv, Bool.not_true, Bool.false_eq_true, if_false]
        simp only [hm, ne_eq, not_true_eq_false, iff_false]
        rcases h2 : extractData g (genPositions H W
            ((parseU32BE ((hd.drop 4).take 4) * 8 + bits - 1) / bits) pw
            (getChannelIndices channels) ((HEADER_SIZE * 8 + bits - 1) / bits))
            bits (parseU32BE ((hd.drop 4).take 4)) with _ | raw
        · simp
        · rcases h3 : (if encrypt && pwTruthy pw then
              decryptPayload fernetDec raw else some raw) with _ | plain
          · simp only [h3]
            simp
          · simp only [h3]
            split <;> simp
      · have hv : validateHeader hd = false := by
          rcases hb : validateHeader hd with _ | _
          · rfl
          · exact absurd ((validateHeader_iff hd).mp hb).2 hm
        unfold extractModel
        simp only [hhd, hv, Bool.not_false, if_true]
        simp [hm]
    · intro hm raw hraw
      have hv : validateHeader hd = true := (validateHeader_iff hd).mpr ⟨hlen16, hm⟩
      constructor
      · unfold extractModel
        simp only [hhd, hv, Bool.not_true, Bool.false_eq_true, if_false, hraw]
        rcases h3 : (if encrypt && pwTruthy pw then
            decryptPayload fernetDec raw else some raw) with _ | plain
        · rcases henc : encrypt && pwTruthy pw with _ | _
          · rw [henc] at h3
            simp only [Bool.false_eq_true, if_false] at h3
            cases h3
          · rw [henc] at h3
            simp only [if_true] at h3
            simp [h3]
        · rcases henc : encrypt && pwTruthy pw with _ | _
          · rw [henc] at h3
            simp only [Bool.false_eq_true, if_false] at h3
            simp only [h3]
            split <;> simp [henc]
          · rw [henc] at h3
            simp only [if_true] at h3
            simp only [h3]
            split <;> simp [henc, h3]
      · intro plain h3
        unfold extractModel
        simp only [hhd, hv, Bool.not_true, Bool.false_eq_true, if_false, hraw, h3]
        constructor
        · split <;> simp_all
        · split <;> simp_all

/-- Witness for C6 at a concrete all-zero grid, whose decoded header is
sixteen zero bytes, so extraction fails with `InvalidFrame`. -/
theorem C6_extract_error_taxonomy_witness :
    extractData (constGrid 0) (genPositions 8 6 ((HEADER_SIZE * 8 + 1 - 1) / 1)
      none (getChannelIndices rgbNames) 0) 1 HEADER_SIZE =
        some (List.replicate 16 0)
    ∧ extractModel fdId (constGrid 0) 8 6 3 1 rgbNames none false =
        .error .invalidFrame := by
  refine ⟨by decide, ?_⟩
  exact (((C6_extract_error_taxonomy fdId (constGrid 0) 8 6 3 1 rgbNames none
    false).2 (List.replicate 16 0) (by decide)).1).mpr (by decide)

/-- Claim C7: `embed` works on a copy — every sample at a position outside
the used schedule prefix is unchanged in the returned grid, and every
sample (scheduled or not) keeps its upper `8 - bitDepth` bits, so a
scheduled sample differs from the original only in its low `bitDepth`
bits. -/
theorem C7_embedding_frame (fernetEnc : List Nat → List Nat → List Nat)
    (salt : List Nat) (g : Grid) (H W C : Nat) (payload : List Nat)
    (bits : Nat) (channels : List String) (pw : Option String) (enc : Bool)
    (g2 : Grid) (hbits : bits = 1 ∨ bits = 2)
    (hok : embedModel fernetEnc salt g H W C payload bits channels pw enc =
      .ok g2) :
    (∀ pos, pos ∉ embedPositions fernetEnc salt H W payload bits channels pw enc →
      g2 pos = g pos)
    ∧ ((∀ q, g q < 256) →
        ∀ pos, g2 pos < 256 ∧ g2 pos >>> bits = g pos >>> bits) := by
  unfold embedModel at hok
  split at hok
  · cases hok
  · injection hok with h
    subst h
    constructor
    · intro pos hpos
      exact embedGo_not_mem _ _ _ _ _ _ hpos
    · intro hb pos
      have hu := embedGo_upper (embedFramed fernetEnc salt payload pw enc) bits
        (by omega) (genPositions H W
          (((embedFramed fernetEnc salt payload pw enc).length * 8 + bits - 1) /
            bits) pw (getChannelIndices channels) 0) g 0 hb
      exact ⟨hu.1 pos, hu.2 pos⟩

/-- Witness for C7: a concrete embedding leaves the unscheduled sample
(7,7,2) at its original value and preserves the upper bits of (0,0,0). -/
theorem C7_embedding_frame_witness :
    embedModel feId salt16 (constGrid 170) 8 8 3 [7] 2 rgbNames none false =
      .ok c7Stego
    ∧ c7Stego (7, 7, 2) = 170
    ∧ c7Stego (0, 0, 0) >>> 2 = 170 >>> 2 := by
  have hok : embedModel feId salt16 (constGrid 170) 8 8 3 [7] 2 rgbNames none
      false = .ok c7Stego := rfl
  have hthm := C7_embedding_frame feId salt16 (constGrid 170) 8 8 3 [7] 2
    rgbNames none false c7Stego (Or.inr rfl) hok
  refine ⟨hok, ?_, ?_⟩
  · exact hthm.1 (7, 7, 2) (by decide)
  · exact (hthm.2 (fun q => by norm_num [constGrid]) (0, 0, 0)).2

/-- Claim C8 (amended): per channel, the detector enumerates the disjoint
8x8 blocks of bit-plane 0 that fit strictly inside the plane — a complete
block flush with the bottom or right edge is discarded, not only
incomplete ones — and on that enumeration `lsbVariance` is the mean of
the per-block variances; `varianceRatio` equals
`lsbVariance / (higherBitVariance + 1e-6)` and `suspicious` holds exactly
when the ratio exceeds 2 or is below 1/2. -/
theorem C8_bitplane_detector (g : Grid) (H W ch : Nat) :
    bitplaneAnalysis g H W ch = bitplaneSpecAmended g H W ch
    ∧ (bitplaneAnalysis g H W ch).varianceRatio =
        (bitplaneAnalysis g H W ch).lsbVariance /
          ((bitplaneAnalysis g H W ch).higherBitVariance + 1 / 1000000)
    ∧ ((bitplaneAnalysis g H W ch).suspicious = true ↔
        ((bitplaneAnalysis g H W ch).varianceRatio > 2 ∨
         (bitplaneAnalysis g H W ch).varianceRatio < 1 / 2)) := by
  refine ⟨?_, rfl, ?_⟩
  · show bitplaneStatsWith pyBlockStarts g H W ch =
      bitplaneStatsWith specBlockStartsAmended g H W ch
    rw [show specBlockStartsAmended = pyBlockStarts from
      funext specBlockStartsAmended_eq]
  · have hs : (bitplaneAnalysis g H W ch).suspicious =
        (decide ((bitplaneAnalysis g H W ch).varianceRatio > 2) ||
         decide ((bitplaneAnalysis g H W ch).varianceRatio < 1 / 2)) := rfl
    rw [hs]
    simp [Bool.or_eq_true, decide_eq_true_iff]

/-- Counterexample for C8 as claimed: on a 16x16 plane the source loop
`range(0, dim - 8, 8)` yields the single block start 0, not the claimed
full partition {0, 8}; on a plane whose bottom-right block is a
checkerboard, the implemented `lsbVariance` is 0 while the claimed
partition gives 1/16. -/
theorem C8_bitplane_detector_counterexample :
    pyBlockStarts 16 = [0]
    ∧ specBlockStarts 16 = [0, 8]
    ∧ (bitplaneAnalysis c8Grid 16 16 0).lsbVariance = 0
    ∧ (bitplaneSpec c8Grid 16 16 0).lsbVariance = 1 / 16 := by
  refine ⟨by decide, by decide, ?_, ?_⟩
  · simp [bitplaneAnalysis, bitplaneStatsWith, pyBlockStarts, blockValues,
      planeBit, c8Grid, listMeanQ, popVarQ, List.range_succ]
  · simp [bitplaneSpec, bitplaneStatsWith, specBlockStarts, blockValues,
      planeBit, c8Grid, listMeanQ, popVarQ, List.range_succ]
    norm_num

/-- Claim C9 (amended): when every collected per-channel confidence is
nonnegative (as holds for well-formed detector outputs), the aggregate
equals the clamped maximum of the collected confidences; it is 0 whenever
no channel of any detector is suspicious; and in the all-clean scenario
the confidence is 0 and the explanation contains "No significant" — with
a capital N, not the claimed all-lowercase text. -/
theorem C9_aggregator_policy (chi : List (String × ChiSquareResult))
    (rs : List (String × RsResult)) (bp : List (String × BitplaneResult)) :
    ((∀ s ∈ confidenceScores chi rs bp, 0 ≤ s) →
      calculateConfidence chi rs bp = specAggregate chi rs bp)
    ∧ ((∀ p ∈ chi, p.2.suspicious = false) →
       (∀ p ∈ rs, p.2.suspicious = false) →
       (∀ p ∈ bp, p.2.suspicious = false) →
        calculateConfidence chi rs bp = 0)
    ∧ (calculateConfidence cleanChi cleanRs cleanBp = 0
      ∧ containsSub (generateExplanation cleanChi cleanRs cleanBp
          (calculateConfidence cleanChi cleanRs cleanBp))
          "No significant" = true) := by
  refine ⟨?_, ?_, rfl, ?_⟩
  · intro hpos
    unfold calculateConfidence specAggregate
    match hsc : confidenceScores chi rs bp with
    | [] => rfl
    | x :: xs =>
      have hx : 0 ≤ x := hpos x (by rw [hsc]; exact List.mem_cons_self x xs)
      have hM : (0 : ℚ) ≤ xs.foldl max x := le_trans hx (le_foldl_max xs x)
      unfold clamp01
      show xs.foldl max x ⊓ 1 = 0 ⊔ xs.foldl max x ⊓ 1
      exact (max_eq_right (le_min hM (by norm_num))).symm
  · intro h1 h2 h3
    unfold calculateConfidence
    have hsc : confidenceScores chi rs bp = [] := by
      unfold confidenceScores
      rw [List.filter_eq_nil_iff.mpr (fun p hp => by simp [h1 p hp]),
        List.filter_eq_nil_iff.mpr (fun p hp => by simp [h2 p hp]),
        List.filter_eq_nil_iff.mpr (fun p hp => by simp [h3 p hp])]
      rfl
    rw [hsc]
  · have hconf : calculateConfidence cleanChi cleanRs cleanBp = 0 := rfl
    rw [hconf]
    have hexp : generateExplanation cleanChi cleanRs cleanBp 0 =
        "No significant steganographic artifacts detected." := by
      unfold generateExplanation
      rw [if_pos (by norm_num)]
      simp [cleanChi, cleanRs, cleanBp]
      decide
    rw [hexp]
    decide

/-- Witness for C9 at a single suspicious chi-square channel whose
collected confidence is nonnegative. -/
theorem C9_aggregator_policy_witness :
    (∀ s ∈ confidenceScores
        [("red", ChiSquareResult.mk 1 (1 / 2) (1 / 4) true)] [] [], 0 ≤ s)
    ∧ calculateConfidence
        [("red", ChiSquareResult.mk 1 (1 / 2) (1 / 4) true)] [] [] =
      specAggregate
        [("red", ChiSquareResult.mk 1 (1 / 2) (1 / 4) true)] [] [] := by
  have hpos : ∀ s ∈ confidenceScores
      [("red", ChiSquareResult.mk 1 (1 / 2) (1 / 4) true)] [] [], 0 ≤ s := by
    intro s hs
    simp [confidenceScores, chiConfidence] at hs
    rw [hs]
    norm_num
  exact ⟨hpos, (C9_aggregator_policy
    [("red", ChiSquareResult.mk 1 (1 / 2) (1 / 4) true)] [] []).1 hpos⟩

/-- Counterexample for C9 as claimed: the clean-scenario explanation does
not contain the all-lowercase text "no significant" — the source emits
"No significant ..." with a capital N. -/
theorem C9_aggregator_policy_counterexample :
    containsSub (generateExplanation cleanChi cleanRs cleanBp
      (calculateConfidence cleanChi cleanRs cleanBp))
      "no significant" = false := by
  have hconf : calculateConfidence cleanChi cleanRs cleanBp = 0 := rfl
  rw [hconf]
  have hexp : generateExplanation cleanChi cleanRs cleanBp 0 =
      "No significant steganographic artifacts detected." := by
    unfold generateExplanation
    rw [if_pos (by norm_num)]
    simp [cleanChi, cleanRs, cleanBp]
    decide
  rw [hexp]
  decide

/-- Claim C1 (amended): the round trip holds for bitDepth in {1,2}, any
non-empty duplicate-free set of valid channel names, with or without
password, for payloads within capacity — unconditionally when encryption
is off (flag unset or password falsy), and in the encrypted case under the
extra fit condition that the salted ciphertext frame still fits the
schedule (the source checks only the plaintext length against capacity,
so this is not implied by the capacity check) with a cipher the decryptor
inverts. -/
theorem C1_round_trip (fernetEnc : List Nat → List Nat → List Nat)
    (fernetDec : List Nat → List Nat → Option (List Nat)) (salt : List Nat)
    (g : Grid) (H W C : Nat) (payload : List Nat) (bits : Nat)
    (channels : List String) (pw : Option String) (encrypt : Bool)
    (hbits : bits = 1 ∨ bits = 2)
    (hne : channels ≠ []) (hnd : channels.Nodup)
    (hv : ∀ c ∈ channels, channelMap c ≠ none)
    (hcap : (payload.length : Int) ≤ calcCapacity H W bits channels.length)
    (hpb : ∀ b ∈ payload, b < 256)
    (hL32 : payload.length < 2 ^ 32)
    (henccase : (encrypt && pwTruthy pw) = true →
      8 * (16 + (encryptPayload fernetEnc salt payload).length) ≤
          bits * (H * W * (getChannelIndices channels).length)
        ∧ (∀ b ∈ encryptPayload fernetEnc salt payload, b < 256)
        ∧ (encryptPayload fernetEnc salt payload).length < 2 ^ 32
        ∧ salt.length = 16
        ∧ fernetDec salt (fernetEnc salt payload) = some payload) :
    ∃ g2, embedModel fernetEnc salt g H W C payload bits channels pw encrypt =
        .ok g2
      ∧ extractModel fernetDec g2 H W C bits channels pw encrypt =
        .ok payload := by
  refine ⟨_, embedModel_ok fernetEnc salt g H W C payload bits channels pw
    encrypt hcap, ?_⟩
  have hchnd := getChannelIndices_nodup channels hne hnd hv
  have hlen : (getChannelIndices channels).length = channels.length :=
    getChannelIndices_length channels hne hv
  by_cases henc : (encrypt && pwTruthy pw) = true
  · obtain ⟨hfit, hsb, hE32, hsalt, hdec⟩ := henccase henc
    have hframe : embedFramed fernetEnc salt payload pw encrypt =
        createPayloadWithHeader (encryptPayload fernetEnc salt payload)
          (some (crc32 payload &&& 0xFFFFFFFF)) := by
      unfold embedFramed
      rw [if_pos henc]
    have hC32 : storedCrc (encryptPayload fernetEnc salt payload)
        (some (crc32 payload &&& 0xFFFFFFFF)) < 2 ^ 32 := by
      show crc32 payload &&& 0xFFFFFFFF < 2 ^ 32
      have hle : crc32 payload &&& 0xFFFFFFFF ≤ 0xFFFFFFFF := Nat.and_le_right
      omega
    have htr := extract_of_embed_frame fernetDec g H W C bits channels pw
      encrypt (encryptPayload fernetEnc salt payload)
      (some (crc32 payload &&& 0xFFFFFFFF)) hbits hchnd hfit hsb hE32 hC32
    rw [hframe, htr, if_pos henc]
    have hdp : decryptPayload fernetDec (encryptPayload fernetEnc salt payload)
        = some payload := by
      unfold decryptPayload encryptPayload
      rw [← hsalt, List.take_left, List.drop_left]
      exact hdec
    simp only [hdp]
    rw [show storedCrc (encryptPayload fernetEnc salt payload)
      (some (crc32 payload &&& 0xFFFFFFFF)) = crc32 payload from
      crc32_and_mask payload]
    rw [if_neg (by simp)]
  · have hframe : embedFramed fernetEnc salt payload pw encrypt =
        createPayloadWithHeader payload none := by
      unfold embedFramed
      rw [if_neg henc]
    have hfit : 8 * (16 + payload.length) ≤
        bits * (H * W * (getChannelIndices channels).length) := by
      have hiff := (le_calcCapacity_iff H W bits channels.length
        payload.length).mp hcap
      rw [hlen]
      calc 8 * (16 + payload.length) = 8 * payload.length + 128 := by ring
        _ ≤ H * W * bits * channels.length := hiff
        _ = bits * (H * W * channels.length) := by ring
    have hC32 : storedCrc payload none < 2 ^ 32 := by
      show crc32 payload &&& 0xFFFFFFFF < 2 ^ 32
      have hle : crc32 payload &&& 0xFFFFFFFF ≤ 0xFFFFFFFF := Nat.and_le_right
      omega
    have htr := extract_of_embed_frame fernetDec g H W C bits channels pw
      encrypt payload none hbits hchnd hfit hpb hL32 hC32
    rw [hframe, htr, if_neg henc]
    show (if crc32 payload ≠ storedCrc payload none then
        Except.error StegoError.integrityError
      else Except.ok payload) = Except.ok payload
    rw [show storedCrc payload none = crc32 payload from crc32_and_mask payload]
    rw [if_neg (by simp)]

/-- Witness for C1: a one-byte payload embedded at 2 bits per channel in
an 8x4 RGB grid without password or encryption extracts back exactly. -/
theorem C1_round_trip_witness :
    ((([202] : List Nat).length : Int) ≤ calcCapacity 8 4 2 rgbNames.length)
    ∧ ∃ g2, embedModel feId salt16 (constGrid 170) 8 4 3 [202] 2 rgbNames
          none false = .ok g2
        ∧ extractModel fdId g2 8 4 3 2 rgbNames none false = .ok [202] := by
  refine ⟨by decide, ?_⟩
  exact C1_round_trip feId fdId salt16 (constGrid 170) 8 4 3 [202] 2 rgbNames
    none false (Or.inr rfl) (by decide) (by decide) (by decide) (by decide)
    (by decide) (by decide) (fun h => absurd h (by decide))

/-- Counterexample for C1 as claimed: a 2-byte payload within the 2-byte
capacity of a 6x8 RGB grid at 1 bit per channel, embedded with encryption
and a password, does not round-trip — the salted ciphertext frame (34
bytes, 272 bits) exceeds the 144 available slots, the frame is silently
truncated, and extraction fails on the announced 18-byte body. -/
theorem C1_round_trip_counterexample :
    ((([1, 2] : List Nat).length : Int) ≤ calcCapacity 6 8 1 rgbNames.length)
    ∧ (embedModel feId salt16 (constGrid 170) 6 8 3 [1, 2] 1 rgbNames
        (some "k") true).map
        (fun g2 => extractModel fdId g2 6 8 3 1 rgbNames (some "k") true) =
      .ok (.error .indexError) := by
  exact ⟨by decide, by decide⟩

end StegoLab





